import Mathlib

/-!
# Verification of the SQL extraction pipeline (`scripts/extract_sql_and_analyze.py`)

A shallow embedding of the two-stage SQL detection pipeline: SQL normalization,
Java/MyBatis-XML extraction, placeholder rewriting, balanced-brace result
extraction from log-polluted analyzer output, invocation/retry logic, snippet
writing with its provenance map, and finding remapping.  Strings are modelled
as `List Char`; Python stdlib behaviour (`re.sub` for the concrete patterns in
the script, `str.replace`, `str.strip`, `str.find`, `json.loads`) is embedded
by explicit executable functions whose doc comments identify the call they
model.
-/

namespace ExtractSql

/-- The opening-brace character, kept as a named constant. -/
def lbrace : Char := Char.ofNat 123

/-- The closing-brace character, kept as a named constant. -/
def rbrace : Char := Char.ofNat 125

/-- Python's `\s` character class (ASCII range), as matched by
`re.sub(r"\s+", " ", s)` and stripped by `str.strip()` in the script. -/
def isPySpace (c : Char) : Bool :=
  c == ' ' || c == '\t' || c == '\n' || c == '\r' || c == '\x0b' || c == '\x0c'

/-- One pass of `re.sub(r"\s+", " ", s)`: every maximal run of whitespace
characters is replaced by a single space. -/
def collapseRuns : List Char → List Char
  | [] => []
  | c :: cs =>
    if isPySpace c then
      match cs with
      | [] => [' ']
      | c2 :: _ => if isPySpace c2 then collapseRuns cs else ' ' :: collapseRuns cs
    else c :: collapseRuns cs

/-- Python `str.strip()`: remove leading and trailing whitespace. -/
def pyStrip (l : List Char) : List Char :=
  ((l.dropWhile isPySpace).reverse.dropWhile isPySpace).reverse

/-- `collapse_ws` (line 50): `re.sub(r"\s+", " ", s).strip()`. -/
def collapse_ws (l : List Char) : List Char := pyStrip (collapseRuns l)

/-- `normalize_sql` (lines 54-58): collapse whitespace, then append a `';'`
terminator when the text does not already end with one. -/
def normalize_sql (l : List Char) : List Char :=
  let sql := collapse_ws l
  if sql.getLast? = some ';' then sql else sql ++ [';']

/-- Canonically-collapsed text: every whitespace character is a plain space and
no two adjacent characters are both whitespace. -/
def Canon (l : List Char) : Prop :=
  (∀ c ∈ l, isPySpace c → c = ' ') ∧
    l.Chain' (fun a b => ¬(isPySpace a = true ∧ isPySpace b = true))

lemma collapseRuns_cons_nws {c : Char} (cs : List Char) (h : isPySpace c = false) :
    collapseRuns (c :: cs) = c :: collapseRuns cs := by
  simp [collapseRuns, h]

lemma collapseRuns_singleton_ws {c : Char} (h : isPySpace c = true) :
    collapseRuns [c] = [' '] := by
  simp [collapseRuns, h]

lemma collapseRuns_ws_ws {c c2 : Char} (t : List Char) (h : isPySpace c = true)
    (h2 : isPySpace c2 = true) :
    collapseRuns (c :: c2 :: t) = collapseRuns (c2 :: t) := by
  simp [collapseRuns, h, h2]

lemma collapseRuns_ws_nws {c c2 : Char} (t : List Char) (h : isPySpace c = true)
    (h2 : isPySpace c2 = false) :
    collapseRuns (c :: c2 :: t) = ' ' :: collapseRuns (c2 :: t) := by
  simp [collapseRuns, h, h2]

lemma canon_collapseRuns : ∀ l : List Char, Canon (collapseRuns l) := by
  intro l
  induction l with
  | nil => exact ⟨by simp [collapseRuns], by simp [collapseRuns]⟩
  | cons c cs ih =>
    by_cases h : isPySpace c = true
    · match cs with
      | [] =>
        rw [collapseRuns_singleton_ws h]
        refine ⟨?_, by simp⟩
        intro x hx _
        simpa using hx
      | c2 :: t =>
        by_cases h2 : isPySpace c2 = true
        · rw [collapseRuns_ws_ws t h h2]; exact ih
        · rw [collapseRuns_ws_nws t h (by simpa using h2)]
          refine ⟨?_, ?_⟩
          · intro x hx hws
            rcases List.mem_cons.mp hx with rfl | hx'
            · rfl
            · exact ih.1 x hx' hws
          · rw [List.chain'_cons']
            refine ⟨?_, ih.2⟩
            intro y hy
            rw [collapseRuns_cons_nws t (by simpa using h2)] at hy
            simp at hy
            subst hy
            simp [h2]
    · rw [collapseRuns_cons_nws cs (by simpa using h)]
      refine ⟨?_, ?_⟩
      · intro x hx hws
        rcases List.mem_cons.mp hx with rfl | hx'
        · exact absurd hws h
        · exact ih.1 x hx' hws
      · rw [List.chain'_cons']
        refine ⟨?_, ih.2⟩
        intro y _
        simp [h]

lemma canon_tail {c : Char} {cs : List Char} (h : Canon (c :: cs)) : Canon cs := by
  refine ⟨fun x hx => h.1 x (List.mem_cons_of_mem _ hx), (List.chain'_cons'.mp h.2).2⟩

lemma canon_collapseRuns_eq : ∀ l : List Char, Canon l → collapseRuns l = l := by
  intro l
  induction l with
  | nil => simp [collapseRuns]
  | cons c cs ih =>
    intro h
    by_cases hws : isPySpace c = true
    · have hc : c = ' ' := h.1 c (List.mem_cons_self _ _) hws
      match cs with
      | [] => rw [collapseRuns_singleton_ws hws, hc]
      | c2 :: t =>
        have h2 : isPySpace c2 = false := by
          have := (List.chain'_cons'.mp h.2).1 c2 (by simp)
          by_contra h2'
          exact this ⟨hws, by simpa using h2'⟩
        rw [collapseRuns_ws_nws t hws h2, ih (canon_tail h), hc]
    · rw [collapseRuns_cons_nws cs (by simpa using hws), ih (canon_tail h)]

lemma dropWhile_head_nws :
    ∀ l : List Char, ∀ c, (l.dropWhile isPySpace).head? = some c → isPySpace c = false := by
  intro l
  induction l with
  | nil => intro c h; simp [List.dropWhile] at h
  | cons x xs ih =>
    intro c h
    by_cases hx : isPySpace x = true
    · rw [List.dropWhile_cons_of_pos hx] at h
      exact ih c h
    · rw [List.dropWhile_cons_of_neg hx] at h
      simp at h
      subst h
      simpa using hx

lemma dropWhile_getLast? (p : Char → Bool) :
    ∀ l : List Char, l.dropWhile p = [] ∨ (l.dropWhile p).getLast? = l.getLast? := by
  intro l
  induction l with
  | nil => left; rfl
  | cons x xs ih =>
    by_cases hx : p x = true
    · rw [List.dropWhile_cons_of_pos hx]
      match xs, ih with
      | [], _ => left; rfl
      | y :: t, ih =>
        rcases ih with h | h
        · left; exact h
        · right
          rw [h, List.getLast?_cons_cons]
    · rw [List.dropWhile_cons_of_neg hx]
      right; rfl

lemma pyStrip_getLast_nws (l : List Char) :
    ∀ c, (pyStrip l).getLast? = some c → isPySpace c = false := by
  intro c h
  unfold pyStrip at h
  rw [List.getLast?_reverse] at h
  exact dropWhile_head_nws _ c h

lemma pyStrip_head_nws (l : List Char) :
    ∀ c, (pyStrip l).head? = some c → isPySpace c = false := by
  intro c h
  unfold pyStrip at h
  rw [List.head?_reverse] at h
  rcases dropWhile_getLast? isPySpace ((l.dropWhile isPySpace).reverse) with he | he
  · rw [he] at h; simp at h
  · rw [he, List.getLast?_reverse] at h
    exact dropWhile_head_nws _ c h

lemma pyStrip_suffix_of_dropWhile (l : List Char) :
    (l.dropWhile isPySpace) <:+ l := List.dropWhile_suffix _

lemma pyStrip_within (l : List Char) : pyStrip l <:+: l := by
  unfold pyStrip
  have h1 : (l.dropWhile isPySpace) <:+ l := List.dropWhile_suffix _
  have h2 : ((l.dropWhile isPySpace).reverse.dropWhile isPySpace) <:+
      (l.dropWhile isPySpace).reverse := List.dropWhile_suffix _
  have h3 : ((l.dropWhile isPySpace).reverse.dropWhile isPySpace).reverse <+:
      (l.dropWhile isPySpace) := by
    have h4 := List.reverse_prefix.mpr h2
    rwa [List.reverse_reverse] at h4
  exact h3.isInfix.trans h1.isInfix

lemma canon_of_within {l t : List Char} (h : Canon l) (hinf : t <:+: l) : Canon t :=
  ⟨fun c hc hws => h.1 c (hinf.subset hc) hws, List.Chain'.infix h.2 hinf⟩

lemma canon_pyStrip {l : List Char} (h : Canon l) : Canon (pyStrip l) :=
  canon_of_within h (pyStrip_within l)

lemma canon_collapse_ws (l : List Char) : Canon (collapse_ws l) :=
  canon_pyStrip (canon_collapseRuns l)

lemma pyStrip_eq_self {l : List Char}
    (hh : ∀ c, l.head? = some c → isPySpace c = false)
    (hl : ∀ c, l.getLast? = some c → isPySpace c = false) : pyStrip l = l := by
  unfold pyStrip
  have h1 : l.dropWhile isPySpace = l := by
    match l with
    | [] => rfl
    | c :: cs =>
      have := hh c rfl
      rw [List.dropWhile_cons_of_neg (by simp [this])]
  rw [h1]
  have h2 : l.reverse.dropWhile isPySpace = l.reverse := by
    match hr : l.reverse with
    | [] => rfl
    | c :: cs =>
      have : l.getLast? = some c := by rw [← List.head?_reverse, hr]; rfl
      have := hl c this
      rw [List.dropWhile_cons_of_neg (by simp [this])]
  rw [h2, List.reverse_reverse]

lemma collapse_ws_fixed {t : List Char} (hc : Canon t)
    (hh : ∀ c, t.head? = some c → isPySpace c = false)
    (hl : ∀ c, t.getLast? = some c → isPySpace c = false) : collapse_ws t = t := by
  unfold collapse_ws
  rw [canon_collapseRuns_eq t hc]
  exact pyStrip_eq_self hh hl

lemma collapse_ws_idem (l : List Char) : collapse_ws (collapse_ws l) = collapse_ws l :=
  collapse_ws_fixed (canon_collapse_ws l) (pyStrip_head_nws _) (pyStrip_getLast_nws _)

lemma semi_not_ws : isPySpace ';' = false := by decide

lemma canon_append_semi {t : List Char} (h : Canon t) : Canon (t ++ [';']) := by
  refine ⟨?_, ?_⟩
  · intro c hc hws
    rcases List.mem_append.mp hc with hc' | hc'
    · exact h.1 c hc' hws
    · simp at hc'
      subst hc'
      exact absurd hws (by simp [semi_not_ws])
  · refine List.Chain'.append h.2 (by simp) ?_
    intro x _ y hy
    simp at hy
    subst hy
    intro hxy
    rw [semi_not_ws] at hxy
    exact absurd hxy.2 (by simp)

lemma collapse_ws_append_semi (l : List Char) :
    collapse_ws (collapse_ws l ++ [';']) = collapse_ws l ++ [';'] := by
  apply collapse_ws_fixed (canon_append_semi (canon_collapse_ws l))
  · intro c hc
    match hcw : collapse_ws l with
    | [] => rw [hcw] at hc; simp at hc; subst hc; exact semi_not_ws
    | x :: xs =>
      rw [hcw] at hc
      simp at hc
      subst hc
      have hx : (collapse_ws l).head? = some x := by rw [hcw]; rfl
      exact pyStrip_head_nws (collapseRuns l) x hx
  · intro c hc
    rw [List.getLast?_concat] at hc
    simp at hc
    subst hc
    exact semi_not_ws

/-- **C5.** `normalize_sql` is idempotent: normalizing already-normalized SQL
text is the identity operation, for every input string. -/
theorem normalize_sql_idempotent (s : List Char) :
    normalize_sql (normalize_sql s) = normalize_sql s := by
  have hdef : ∀ t : List Char, normalize_sql t =
      if (collapse_ws t).getLast? = some ';' then collapse_ws t
      else collapse_ws t ++ [';'] := fun _ => rfl
  by_cases h : (collapse_ws s).getLast? = some ';'
  · rw [hdef s, if_pos h, hdef, collapse_ws_idem s, if_pos h]
  · rw [hdef s, if_neg h, hdef, collapse_ws_append_semi s,
      if_pos (by rw [List.getLast?_concat])]

/-- **C6.** For every raw SQL input the normalizer's output is non-empty, ends
with the statement terminator `';'`, has all whitespace collapsed to single
spaces (`Canon`), equals the collapsed text itself when that already ends with
a terminator (never duplicating it), and otherwise equals the collapsed text
with exactly one terminator appended. -/
theorem normalize_sql_terminated (s : List Char) :
    normalize_sql s ≠ [] ∧
    (normalize_sql s).getLast? = some ';' ∧
    Canon (normalize_sql s) ∧
    ((collapse_ws s).getLast? = some ';' → normalize_sql s = collapse_ws s) ∧
    ((collapse_ws s).getLast? ≠ some ';' → normalize_sql s = collapse_ws s ++ [';']) := by
  have hdef : normalize_sql s =
      if (collapse_ws s).getLast? = some ';' then collapse_ws s
      else collapse_ws s ++ [';'] := rfl
  by_cases h : (collapse_ws s).getLast? = some ';'
  · rw [hdef, if_pos h]
    refine ⟨?_, h, canon_collapse_ws s, fun _ => rfl, fun hne => absurd h hne⟩
    intro hnil
    rw [hnil] at h
    simp at h
  · rw [hdef, if_neg h]
    refine ⟨by simp, ?_, canon_append_semi (canon_collapse_ws s), fun hc => absurd hc h,
      fun _ => rfl⟩
    rw [List.getLast?_concat]

/-- Witness for C6 at a concrete input: `normalize_sql "a  b"` is
non-empty, `';'`-terminated, and gains exactly one terminator. -/
theorem normalize_sql_terminated_witness :
    normalize_sql ('a' :: ' ' :: ' ' :: ['b']) ≠ [] ∧
    (normalize_sql ('a' :: ' ' :: ' ' :: ['b'])).getLast? = some ';' ∧
    normalize_sql ('a' :: ' ' :: ' ' :: ['b']) =
      collapse_ws ('a' :: ' ' :: ' ' :: ['b']) ++ [';'] := by
  have h := normalize_sql_terminated ('a' :: ' ' :: ' ' :: ['b'])
  exact ⟨h.1, h.2.1, h.2.2.2.2 (by decide)⟩

/-! ## Placeholder rewriting (`extract_sql_from_xml`, lines 145-146 and 162-163)

`re.sub(r"#\{[^}]+\}", "1", s)` and `re.sub(r"\$\{[^}]+\}", "T0", s)` share one
pattern shape: an opener character, an opening brace, one or more non-closing-
brace characters, a closing brace.  `pySubPHGo` is a left-to-right scanner for
that shape.  The buffered states reproduce the regex engine exactly: a match
attempt that cannot complete (opener not followed by a brace, an empty body,
or end of input inside a body) resumes scanning just after the opener, and the
replacement text is never rescanned. -/

/-- Scanner state for `pySubPHGo`: scanning normally, just after an opener
character, or inside `opener{` with the body characters read so far (reversed). -/
inductive PHState where
  | norm : PHState
  | seenO : PHState
  | inBody (bodyRev : List Char) : PHState

/-- Left-to-right non-overlapping substitution of `o{body}` (nonempty `body`
without a closing brace) by `repl`, the embedding of
`re.sub(o + r"\{[^}]+\}", repl, s)`. -/
def pySubPHGo (o : Char) (repl : List Char) : PHState → List Char → List Char
  | .norm, [] => []
  | .norm, c :: cs =>
    if c = o then pySubPHGo o repl .seenO cs
    else c :: pySubPHGo o repl .norm cs
  | .seenO, [] => [o]
  | .seenO, c :: cs =>
    if c = lbrace then pySubPHGo o repl (.inBody []) cs
    else if c = o then o :: pySubPHGo o repl .seenO cs
    else o :: c :: pySubPHGo o repl .norm cs
  | .inBody b, [] => o :: lbrace :: b.reverse
  | .inBody b, c :: cs =>
    if c = rbrace then
      if b = [] then o :: lbrace :: rbrace :: pySubPHGo o repl .norm cs
      else repl ++ pySubPHGo o repl .norm cs
    else pySubPHGo o repl (.inBody (c :: b)) cs

/-- `re.sub(o + r"\{[^}]+\}", repl, l)` for opener `o` and replacement `repl`. -/
def pySubPH (o : Char) (repl : List Char) (l : List Char) : List Char :=
  pySubPHGo o repl .norm l

/-- Both placeholder rewrites of the script, in source order: value
placeholders `#{...}` become `"1"`, identifier-like placeholders `${...}`
become `"T0"` (lines 145-146, repeated at 162-163). -/
def rewritePlaceholders (l : List Char) : List Char :=
  pySubPH '$' ['T', '0'] (pySubPH '#' ['1'] l)

example : pySubPH '#' ['1'] ('x' :: '#' :: lbrace :: 'i' :: 'd' :: rbrace :: ['y']) =
    ('x' :: '1' :: ['y']) := by decide

example : pySubPH '#' ['1'] ('#' :: lbrace :: rbrace :: []) =
    ('#' :: lbrace :: rbrace :: []) := by decide

example : pySubPH '#' ['1'] ('#' :: '#' :: lbrace :: 'a' :: rbrace :: []) =
    ('#' :: '1' :: []) := by decide

/-- The string `s` contains an occurrence of the placeholder syntax
`o{body}` with `body` nonempty and free of closing braces. -/
def IsPH (o : Char) (s : List Char) : Prop :=
  ∃ a b c, s = a ++ o :: lbrace :: (b ++ rbrace :: c) ∧ b ≠ [] ∧ rbrace ∉ b

/-- No occurrence of the placeholder syntax for opener `o` survives in `s`. -/
def PHFree (o : Char) (s : List Char) : Prop := ¬ IsPH o s

/-- A placeholder occurrence starting at the first character. -/
def StartsPH (o : Char) (s : List Char) : Prop :=
  ∃ b c, s = o :: lbrace :: (b ++ rbrace :: c) ∧ b ≠ [] ∧ rbrace ∉ b

/-- `t` decomposes as a nonempty closing-brace-free block followed by a
closing brace (the body-and-close part of a placeholder). -/
def BodyClose (t : List Char) : Prop :=
  ∃ b c, t = b ++ rbrace :: c ∧ b ≠ [] ∧ rbrace ∉ b

lemma lbrace_ne_rbrace : lbrace ≠ rbrace := by decide

lemma isPH_cons {o c : Char} {s : List Char} :
    IsPH o (c :: s) ↔ StartsPH o (c :: s) ∨ IsPH o s := by
  constructor
  · rintro ⟨a, b, d, heq, hb, hnb⟩
    match a, heq with
    | [], heq => exact Or.inl ⟨b, d, heq, hb, hnb⟩
    | a0 :: a', heq =>
      right
      simp only [List.cons_append] at heq
      injection heq with h1 h2
      exact ⟨a', b, d, h2, hb, hnb⟩
  · rintro (⟨b, d, heq, hb, hnb⟩ | ⟨a, b, d, heq, hb, hnb⟩)
    · exact ⟨[], b, d, heq, hb, hnb⟩
    · exact ⟨c :: a, b, d, by rw [heq]; rfl, hb, hnb⟩

lemma phFree_nil {o : Char} : PHFree o [] := by
  rintro ⟨a, b, d, heq, -, -⟩
  have h := congrArg List.length heq
  simp at h
  omega

lemma phFree_cons_iff {o c : Char} {s : List Char} :
    PHFree o (c :: s) ↔ ¬ StartsPH o (c :: s) ∧ PHFree o s := by
  unfold PHFree
  rw [isPH_cons]
  exact not_or

lemma phFree_tail {o c : Char} {s : List Char} (h : PHFree o (c :: s)) : PHFree o s :=
  (phFree_cons_iff.mp h).2

lemma startsPH_head {o : Char} {s : List Char} (h : StartsPH o s) : s.head? = some o := by
  rcases h with ⟨b, d, heq, -, -⟩
  rw [heq]; rfl

lemma not_startsPH_of_ne {o c : Char} (s : List Char) (h : c ≠ o) :
    ¬ StartsPH o (c :: s) := by
  intro hs
  have := startsPH_head hs
  simp at this
  exact h this

lemma startsPH_second {o : Char} {s : List Char} (h : StartsPH o (o :: s)) :
    s.head? = some lbrace := by
  rcases h with ⟨b, d, heq, -, -⟩
  injection heq with h1 h2
  rw [h2]; rfl

lemma startsPH_o_lb_iff {o : Char} {t : List Char} :
    StartsPH o (o :: lbrace :: t) ↔ BodyClose t := by
  constructor
  · rintro ⟨b, d, heq, hb, hnb⟩
    injection heq with h1 h2
    injection h2 with h3 h4
    exact ⟨b, d, h4, hb, hnb⟩
  · rintro ⟨b, d, heq, hb, hnb⟩
    exact ⟨b, d, by rw [heq], hb, hnb⟩

lemma bodyClose_iff {t : List Char} :
    BodyClose t ↔ (rbrace ∈ t ∧ t.head? ≠ some rbrace) := by
  constructor
  · rintro ⟨b, d, heq, hb, hnb⟩
    refine ⟨by rw [heq]; simp, ?_⟩
    match b, hb with
    | b0 :: b', _ =>
      rw [heq]
      simp only [List.cons_append, List.head?_cons, ne_eq, Option.some.injEq]
      intro hb0
      exact hnb (by rw [hb0]; exact List.mem_cons_self _ _)
  · rintro ⟨hm, hh⟩
    have hdw : t.dropWhile (fun c => c != rbrace) ≠ [] := by
      intro hnil
      rw [List.dropWhile_eq_nil_iff] at hnil
      have := hnil rbrace hm
      simp at this
    match hd : t.dropWhile (fun c => c != rbrace), hdw with
    | x :: rest, _ =>
      have hx : x = rbrace := by
        have h2 := List.head?_dropWhile_not (fun c => c != rbrace) t
        rw [hd] at h2
        simpa using h2
      subst hx
      refine ⟨t.takeWhile (fun c => c != rbrace), rest, ?_, ?_, ?_⟩
      · conv_lhs => rw [← List.takeWhile_append_dropWhile (fun c => c != rbrace) t,
          hd]
      · intro hnil
        have hta := List.takeWhile_append_dropWhile (fun c => c != rbrace) t
        rw [hnil, List.nil_append, hd] at hta
        rw [← hta] at hh
        simp at hh
      · intro hxm
        have := List.mem_takeWhile_imp hxm
        simp at this

lemma not_bodyClose_of_not_mem {t : List Char} (h : rbrace ∉ t) : ¬ BodyClose t := by
  intro hb
  exact h (bodyClose_iff.mp hb).1

lemma not_bodyClose_cons_rb {t : List Char} : ¬ BodyClose (rbrace :: t) := by
  intro hb
  have := (bodyClose_iff.mp hb).2
  simp at this

lemma phFree_of_not_mem_rb {o : Char} {s : List Char} (h : rbrace ∉ s) : PHFree o s := by
  rintro ⟨a, b, d, heq, -, -⟩
  exact h (by rw [heq]; simp)

lemma not_startsPH_olb_rb {o : Char} (X : List Char) :
    ¬ StartsPH o (o :: lbrace :: rbrace :: X) := by
  rw [startsPH_o_lb_iff]
  exact not_bodyClose_cons_rb

lemma phFree_append_left {o : Char} {u v : List Char}
    (hu : ∀ x ∈ u, x ≠ o) (hv : PHFree o v) : PHFree o (u ++ v) := by
  induction u with
  | nil => simpa using hv
  | cons u0 u' ih =>
    rw [List.cons_append, phFree_cons_iff]
    exact ⟨not_startsPH_of_ne _ (hu u0 (List.mem_cons_self _ _)),
      ih fun x hx => hu x (List.mem_cons_of_mem _ hx)⟩

lemma phFree_drop_left {o : Char} {u v : List Char} (h : PHFree o (u ++ v)) :
    PHFree o v := by
  rintro ⟨a, b, d, heq, hb, hnb⟩
  exact h ⟨u ++ a, b, d, by rw [heq, List.append_assoc], hb, hnb⟩

/-- The characters buffered (pending output) by a scanner state. -/
def stBuf (o : Char) : PHState → List Char
  | .norm => []
  | .seenO => [o]
  | .inBody b => o :: lbrace :: b

lemma mem_pySubPHGo {o : Char} {repl : List Char} :
    ∀ (l : List Char) (st : PHState) (x : Char),
      x ∈ pySubPHGo o repl st l → x ∈ repl ∨ x ∈ l ∨ x ∈ stBuf o st := by
  intro l
  induction l with
  | nil =>
    intro st x hx
    rcases st with _ | _ | b
    · simp [pySubPHGo] at hx
    · simp [pySubPHGo] at hx
      simp [stBuf, hx]
    · simp [pySubPHGo] at hx
      rcases hx with rfl | rfl | hx
      · simp [stBuf]
      · simp [stBuf]
      · simp [stBuf, hx]
  | cons c cs ih =>
    intro st x hx
    rcases st with _ | _ | b
    · by_cases hc : c = o
      · simp only [pySubPHGo, if_pos hc] at hx
        rcases ih _ x hx with h | h | h
        · exact Or.inl h
        · exact Or.inr (Or.inl (List.mem_cons_of_mem _ h))
        · simp [stBuf] at h
          subst h
          exact Or.inr (Or.inl (by simp [hc]))
      · simp only [pySubPHGo, if_neg hc] at hx
        rcases List.mem_cons.mp hx with rfl | hx'
        · exact Or.inr (Or.inl (List.mem_cons_self _ _))
        · rcases ih _ x hx' with h | h | h
          · exact Or.inl h
          · exact Or.inr (Or.inl (List.mem_cons_of_mem _ h))
          · simp [stBuf] at h
    · by_cases h1 : c = lbrace
      · simp only [pySubPHGo, if_pos h1] at hx
        rcases ih _ x hx with h | h | h
        · exact Or.inl h
        · exact Or.inr (Or.inl (List.mem_cons_of_mem _ h))
        · simp [stBuf] at h
          rcases h with rfl | rfl
          · simp [stBuf]
          · exact Or.inr (Or.inl (by simp [h1]))
      · by_cases h2 : c = o
        · simp only [pySubPHGo, if_neg h1, if_pos h2] at hx
          rcases List.mem_cons.mp hx with rfl | hx'
          · simp [stBuf]
          · rcases ih _ x hx' with h | h | h
            · exact Or.inl h
            · exact Or.inr (Or.inl (List.mem_cons_of_mem _ h))
            · simp [stBuf] at h
              simp [stBuf, h]
        · simp only [pySubPHGo, if_neg h1, if_neg h2] at hx
          rcases List.mem_cons.mp hx with rfl | hx'
          · simp [stBuf]
          · rcases List.mem_cons.mp hx' with rfl | hx''
            · exact Or.inr (Or.inl (List.mem_cons_self _ _))
            · rcases ih _ x hx'' with h | h | h
              · exact Or.inl h
              · exact Or.inr (Or.inl (List.mem_cons_of_mem _ h))
              · simp [stBuf] at h
    · by_cases h1 : c = rbrace
      · by_cases h2 : b = []
        · simp only [pySubPHGo, if_pos h1, if_pos h2] at hx
          rcases List.mem_cons.mp hx with rfl | hx'
          · simp [stBuf]
          · rcases List.mem_cons.mp hx' with rfl | hx''
            · simp [stBuf]
            · rcases List.mem_cons.mp hx'' with rfl | hx3
              · exact Or.inr (Or.inl (by simp [h1]))
              · rcases ih _ x hx3 with h | h | h
                · exact Or.inl h
                · exact Or.inr (Or.inl (List.mem_cons_of_mem _ h))
                · simp [stBuf] at h
        · simp only [pySubPHGo, if_pos h1, if_neg h2] at hx
          rcases List.mem_append.mp hx with h | h
          · exact Or.inl h
          · rcases ih _ x h with h' | h' | h'
            · exact Or.inl h'
            · exact Or.inr (Or.inl (List.mem_cons_of_mem _ h'))
            · simp [stBuf] at h'
      · simp only [pySubPHGo, if_neg h1] at hx
        rcases ih _ x hx with h | h | h
        · exact Or.inl h
        · exact Or.inr (Or.inl (List.mem_cons_of_mem _ h))
        · simp [stBuf] at h
          rcases h with rfl | rfl | rfl | h'
          · simp [stBuf]
          · simp [stBuf]
          · exact Or.inr (Or.inl (List.mem_cons_self _ _))
          · simp [stBuf, h']

lemma head_pySubPHGo_buffered {o : Char} {repl : List Char} (hrn : repl ≠ []) :
    ∀ (l : List Char) (st : PHState) (x : Char), st ≠ .norm →
      (pySubPHGo o repl st l).head? = some x → x = o ∨ x ∈ repl := by
  intro l
  induction l with
  | nil =>
    intro st x hst hx
    rcases st with _ | _ | b
    · exact absurd rfl hst
    · simp [pySubPHGo] at hx
      exact Or.inl hx.symm
    · simp [pySubPHGo] at hx
      exact Or.inl hx.symm
  | cons c cs ih =>
    intro st x hst hx
    rcases st with _ | _ | b
    · exact absurd rfl hst
    · by_cases h1 : c = lbrace
      · simp only [pySubPHGo, if_pos h1] at hx
        exact ih (.inBody []) x (by simp) hx
      · by_cases h2 : c = o
        · simp only [pySubPHGo, if_neg h1, if_pos h2] at hx
          simp at hx
          exact Or.inl hx.symm
        · simp only [pySubPHGo, if_neg h1, if_neg h2] at hx
          simp at hx
          exact Or.inl hx.symm
    · by_cases h1 : c = rbrace
      · by_cases h2 : b = []
        · simp only [pySubPHGo, if_pos h1, if_pos h2] at hx
          simp at hx
          exact Or.inl hx.symm
        · simp only [pySubPHGo, if_pos h1, if_neg h2] at hx
          match repl, hrn with
          | r0 :: r', _ =>
            simp at hx
            subst hx
            exact Or.inr (List.mem_cons_self _ _)
      · simp only [pySubPHGo, if_neg h1] at hx
        exact ih (.inBody (c :: b)) x (by simp) hx

lemma head_pySubPHGo_norm {o : Char} {repl : List Char} (hrn : repl ≠ []) :
    ∀ (l : List Char) (x : Char),
      (pySubPHGo o repl .norm l).head? = some x →
      x = o ∨ x ∈ repl ∨ l.head? = some x := by
  intro l x hx
  match l with
  | [] => simp [pySubPHGo] at hx
  | c :: cs =>
    by_cases hc : c = o
    · simp only [pySubPHGo, if_pos hc] at hx
      rcases head_pySubPHGo_buffered hrn cs .seenO x (by simp) hx with h | h
      · exact Or.inl h
      · exact Or.inr (Or.inl h)
    · simp only [pySubPHGo, if_neg hc] at hx
      simp at hx
      exact Or.inr (Or.inr (by simp [hx]))

/-- The invariant the scanner maintains about its own buffered body. -/
def StOK : PHState → Prop
  | .norm => True
  | .seenO => True
  | .inBody b => rbrace ∉ b

/-- The output of the placeholder scanner never contains an unrewritten
placeholder for its own opener. -/
lemma pySubPHGo_free {o : Char} {repl : List Char} (ho1 : o ≠ lbrace) (ho2 : o ≠ rbrace)
    (hro : o ∉ repl) (hrl : lbrace ∉ repl) (hrn : repl ≠ []) :
    ∀ (l : List Char) (st : PHState), StOK st → PHFree o (pySubPHGo o repl st l) := by
  intro l
  induction l with
  | nil =>
    intro st hst
    rcases st with _ | _ | b
    · exact phFree_nil
    · exact phFree_of_not_mem_rb (by simp [pySubPHGo, Ne.symm ho2])
    · refine phFree_of_not_mem_rb ?_
      simp only [pySubPHGo]
      intro hmem
      rcases List.mem_cons.mp hmem with h | h
      · exact ho2 h.symm
      · rcases List.mem_cons.mp h with h' | h'
        · exact lbrace_ne_rbrace h'.symm
        · exact hst (List.mem_reverse.mp h')
  | cons c cs ih =>
    intro st hst
    rcases st with _ | _ | b
    · by_cases hc : c = o
      · simp only [pySubPHGo, if_pos hc]
        exact ih .seenO trivial
      · simp only [pySubPHGo, if_neg hc]
        exact phFree_cons_iff.mpr ⟨not_startsPH_of_ne _ hc, ih .norm trivial⟩
    · by_cases h1 : c = lbrace
      · simp only [pySubPHGo, if_pos h1]
        exact ih (.inBody []) (by simp [StOK])
      · by_cases h2 : c = o
        · simp only [pySubPHGo, if_neg h1, if_pos h2]
          refine phFree_cons_iff.mpr ⟨?_, ih .seenO trivial⟩
          intro hs
          have hhd := startsPH_second hs
          rcases head_pySubPHGo_buffered hrn cs .seenO lbrace (by simp) hhd with h | h
          · exact ho1 h.symm
          · exact hrl h
        · simp only [pySubPHGo, if_neg h1, if_neg h2]
          refine phFree_cons_iff.mpr ⟨?_,
            phFree_cons_iff.mpr ⟨not_startsPH_of_ne _ h2, ih .norm trivial⟩⟩
          intro hs
          have hhd := startsPH_second hs
          simp at hhd
          exact h1 hhd
    · by_cases h1 : c = rbrace
      · by_cases h2 : b = []
        · simp only [pySubPHGo, if_pos h1, if_pos h2]
          refine phFree_cons_iff.mpr ⟨not_startsPH_olb_rb _, ?_⟩
          refine phFree_cons_iff.mpr ⟨not_startsPH_of_ne _ (Ne.symm ho1), ?_⟩
          exact phFree_cons_iff.mpr ⟨not_startsPH_of_ne _ (Ne.symm ho2), ih .norm trivial⟩
        · simp only [pySubPHGo, if_pos h1, if_neg h2]
          refine phFree_append_left ?_ (ih .norm trivial)
          intro x hx hxo
          exact hro (hxo ▸ hx)
      · simp only [pySubPHGo, if_neg h1]
        refine ih (.inBody (c :: b)) ?_
        intro hmem
        rcases List.mem_cons.mp hmem with h | h
        · exact h1 h.symm
        · exact hst h

/-- `pySubPH` leaves no placeholder of its own opener in its output
(replacement text nonempty and free of the opener and both braces). -/
lemma pySubPH_free {o : Char} {repl : List Char} (ho1 : o ≠ lbrace) (ho2 : o ≠ rbrace)
    (hro : o ∉ repl) (hrl : lbrace ∉ repl) (hrn : repl ≠ []) (l : List Char) :
    PHFree o (pySubPH o repl l) :=
  pySubPHGo_free ho1 ho2 hro hrl hrn l .norm trivial

/-- Input invariant for preservation: the pending buffered text re-attached to
the remaining input is free of `o'` placeholders. -/
def InOK (o o' : Char) : PHState → List Char → Prop
  | .norm, l => PHFree o' l
  | .seenO, l => PHFree o' (o :: l)
  | .inBody b, l => PHFree o' (o :: lbrace :: (b.reverse ++ l)) ∧ rbrace ∉ b

lemma not_bodyClose_pySubPHGo_norm {o : Char} {repl : List Char} (ho2 : o ≠ rbrace)
    (hrb : rbrace ∉ repl) {t : List Char} (h : ¬ BodyClose t) :
    ¬ BodyClose (pySubPHGo o repl .norm t) := by
  by_cases hm : rbrace ∈ t
  · have hhd : t.head? = some rbrace := by
      by_contra hne
      exact h (bodyClose_iff.mpr ⟨hm, hne⟩)
    match t, hhd with
    | c :: t2, hhd =>
      simp at hhd
      subst hhd
      rw [pySubPHGo, if_neg (Ne.symm ho2)]
      exact not_bodyClose_cons_rb
  · refine not_bodyClose_of_not_mem ?_
    intro hmem
    rcases mem_pySubPHGo t .norm rbrace hmem with h' | h' | h'
    · exact hrb h'
    · exact hm h'
    · simp [stBuf] at h'

/-- The placeholder scanner for opener `o` preserves freeness from
placeholders of a different opener `o'`. -/
lemma pySubPHGo_preserves {o o' : Char} {repl : List Char} (hne : o ≠ o')
    (ho1 : o ≠ lbrace) (ho2 : o ≠ rbrace) (ho'1 : o' ≠ lbrace) (ho'2 : o' ≠ rbrace)
    (hro' : o' ∉ repl) (hrl : lbrace ∉ repl) (hrb : rbrace ∉ repl) (hrn : repl ≠ []) :
    ∀ (l : List Char) (st : PHState), InOK o o' st l →
      PHFree o' (pySubPHGo o repl st l) := by
  intro l
  induction l with
  | nil =>
    intro st hst
    rcases st with _ | _ | b
    · exact phFree_nil
    · exact phFree_of_not_mem_rb (by simp [pySubPHGo, Ne.symm ho2])
    · refine phFree_of_not_mem_rb ?_
      simp only [pySubPHGo]
      intro hmem
      rcases List.mem_cons.mp hmem with h | h
      · exact ho2 h.symm
      · rcases List.mem_cons.mp h with h' | h'
        · exact lbrace_ne_rbrace h'.symm
        · exact hst.2 (List.mem_reverse.mp h')
  | cons c cs ih =>
    intro st hst
    rcases st with _ | _ | b
    · by_cases hc : c = o
      · simp only [pySubPHGo, if_pos hc]
        refine ih .seenO ?_
        show PHFree o' (o :: cs)
        rw [← hc]
        exact hst
      · simp only [pySubPHGo, if_neg hc]
        refine phFree_cons_iff.mpr ⟨?_, ih .norm (phFree_tail hst)⟩
        by_cases hc' : c = o'
        · subst hc'
          intro hs
          have hhd := startsPH_second hs
          rcases head_pySubPHGo_norm hrn cs lbrace hhd with h | h | h
          · exact ho1 h.symm
          · exact hrl h
          · match cs, h with
            | d :: cs2, h =>
              simp at h
              subst h
              rw [pySubPHGo, if_neg (Ne.symm ho1)] at hs
              rw [startsPH_o_lb_iff] at hs
              have hin : ¬ StartsPH c (c :: lbrace :: cs2) :=
                (phFree_cons_iff.mp hst).1
              rw [startsPH_o_lb_iff] at hin
              exact not_bodyClose_pySubPHGo_norm ho2 hrb hin hs
        · exact not_startsPH_of_ne _ hc'
    · by_cases h1 : c = lbrace
      · simp only [pySubPHGo, if_pos h1]
        refine ih (.inBody []) ⟨?_, by simp⟩
        simp only [List.reverse_nil, List.nil_append]
        show PHFree o' (o :: lbrace :: cs)
        rw [← h1]
        exact hst
      · by_cases h2 : c = o
        · simp only [pySubPHGo, if_neg h1, if_pos h2]
          refine phFree_cons_iff.mpr ⟨not_startsPH_of_ne _ hne, ?_⟩
          refine ih .seenO ?_
          show PHFree o' (o :: cs)
          rw [← h2]
          exact phFree_tail hst
        · simp only [pySubPHGo, if_neg h1, if_neg h2]
          refine phFree_cons_iff.mpr ⟨not_startsPH_of_ne _ hne, ?_⟩
          refine phFree_cons_iff.mpr ⟨?_, ih .norm (phFree_tail (phFree_tail hst))⟩
          by_cases hc' : c = o'
          · subst hc'
            intro hs
            have hhd := startsPH_second hs
            rcases head_pySubPHGo_norm hrn cs lbrace hhd with h | h | h
            · exact ho1 h.symm
            · exact hrl h
            · match cs, h with
              | d :: cs2, h =>
                simp at h
                subst h
                rw [pySubPHGo, if_neg (Ne.symm ho1)] at hs
                rw [startsPH_o_lb_iff] at hs
                have hin : ¬ StartsPH c (c :: lbrace :: cs2) :=
                  (phFree_cons_iff.mp (phFree_tail hst)).1
                rw [startsPH_o_lb_iff] at hin
                exact not_bodyClose_pySubPHGo_norm ho2 hrb hin hs
          · exact not_startsPH_of_ne _ hc'
    · by_cases h1 : c = rbrace
      · by_cases h2 : b = []
        · simp only [pySubPHGo, if_pos h1, if_pos h2]
          have hcs : PHFree o' cs := by
            have h3 := hst.1
            rw [h2] at h3
            simp only [List.reverse_nil, List.nil_append] at h3
            rw [h1] at h3
            exact phFree_tail (phFree_tail (phFree_tail h3))
          refine phFree_cons_iff.mpr ⟨not_startsPH_of_ne _ hne, ?_⟩
          refine phFree_cons_iff.mpr ⟨not_startsPH_of_ne _ (Ne.symm ho'1), ?_⟩
          exact phFree_cons_iff.mpr ⟨not_startsPH_of_ne _ (Ne.symm ho'2), ih .norm hcs⟩
        · simp only [pySubPHGo, if_pos h1, if_neg h2]
          have hcs : PHFree o' cs := by
            have h3 := hst.1
            rw [h1] at h3
            have h4 : o :: lbrace :: (b.reverse ++ rbrace :: cs) =
                (o :: lbrace :: (b.reverse ++ [rbrace])) ++ cs := by
              simp
            rw [h4] at h3
            exact phFree_drop_left h3
          refine phFree_append_left ?_ (ih .norm hcs)
          intro x hx hxo
          exact hro' (hxo ▸ hx)
      · simp only [pySubPHGo, if_neg h1]
        refine ih (.inBody (c :: b)) ⟨?_, ?_⟩
        · have h3 := hst.1
          have h4 : (c :: b).reverse ++ cs = b.reverse ++ (c :: cs) := by
            simp
          rw [h4]
          exact h3
        · intro hmem
          rcases List.mem_cons.mp hmem with h | h
          · exact h1 h.symm
          · exact hst.2 h

/-- `pySubPH` for a different opener preserves placeholder-freeness. -/
lemma pySubPH_preserves {o o' : Char} {repl : List Char} (hne : o ≠ o')
    (ho1 : o ≠ lbrace) (ho2 : o ≠ rbrace) (ho'1 : o' ≠ lbrace) (ho'2 : o' ≠ rbrace)
    (hro' : o' ∉ repl) (hrl : lbrace ∉ repl) (hrb : rbrace ∉ repl) (hrn : repl ≠ [])
    {l : List Char} (h : PHFree o' l) : PHFree o' (pySubPH o repl l) :=
  pySubPHGo_preserves hne ho1 ho2 ho'1 ho'2 hro' hrl hrb hrn l .norm h

/-! ## XML extraction (`extract_sql_from_xml`, lines 125-167) -/

/-- Case-sensitive character comparison. -/
def charEq (a b : Char) : Bool := a == b

/-- Case-insensitive character comparison (for the `re.IGNORECASE` fallback
patterns). -/
def charEqCI (a b : Char) : Bool := a.toLower == b.toLower

/-- Match `marker` at the head of the input under comparison `eqf`; on success
return the remaining input. -/
def matchPre (eqf : Char → Char → Bool) : List Char → List Char → Option (List Char)
  | [], l => some l
  | _ :: _, [] => none
  | p :: ps, c :: cs => if eqf c p then matchPre eqf ps cs else none

/-- Find the earliest occurrence of `marker` in the input and split around it:
`some (before, after)` with the input equal to `before ++ marker ++ after`
(up to `eqf`).  This is the lazy-quantifier search `.*?marker`. -/
def scanSplit (eqf : Char → Char → Bool) (marker : List Char) :
    List Char → Option (List Char × List Char)
  | [] =>
    match marker with
    | [] => some ([], [])
    | _ :: _ => none
  | c :: cs =>
    match matchPre eqf marker (c :: cs) with
    | some rest => some ([], rest)
    | none => (scanSplit eqf marker cs).map (fun p => (c :: p.1, p.2))

/-- Python `text.find(needle)` (first occurrence, `none` instead of `-1`),
scanning from index `i`. -/
def findSubFrom : Nat → List Char → List Char → Option Nat
  | i, needle, [] => if needle = [] then some i else none
  | i, needle, c :: cs =>
    if needle.isPrefixOf (c :: cs) then some i else findSubFrom (i + 1) needle cs

/-- Python `hay.find(needle)`: index of the first occurrence. -/
def findSub (hay needle : List Char) : Option Nat := findSubFrom 0 needle hay

/-- Python `needle in hay`. -/
def containsSub (hay needle : List Char) : Bool := (findSub hay needle).isSome

/-- One round of `re.sub(r"<!--.*?-->", " ", s, flags=re.DOTALL)` (line 161),
fuelled by the input length: replace each non-overlapping comment, leftmost
first, by a single space.  An opener without a closer matches nothing. -/
def stripXmlCommentsF : Nat → List Char → List Char
  | 0, l => l
  | fuel + 1, l =>
    match scanSplit charEq ('<' :: '!' :: '-' :: '-' :: []) l with
    | none => l
    | some (before, rest) =>
      match scanSplit charEq ('-' :: '-' :: '>' :: []) rest with
      | none => l
      | some (_, afterClose) => before ++ ' ' :: stripXmlCommentsF fuel afterClose

/-- `re.sub(r"<!--.*?-->", " ", s, flags=re.DOTALL)`. -/
def stripXmlComments (l : List Char) : List Char := stripXmlCommentsF l.length l

/-- Match the opening-tag pattern `<tag[^>]*>` (case-insensitive) at the head
of the input; on success return the input after the `>`. -/
def matchOpenTag (tag : List Char) (l : List Char) : Option (List Char) :=
  match matchPre charEqCI ('<' :: tag) l with
  | none => none
  | some r1 =>
    match r1.dropWhile (fun c => c != '>') with
    | _ :: r2 => some r2
    | [] => none

/-- `re.finditer(rf'<{tag}[^>]*>([\s\S]*?)</{tag}>', text, re.IGNORECASE)`
(lines 157-158), fuelled by the input length: return `(start index, body)`
for each non-overlapping match, resuming after each match end. -/
def xmlTagFinditerF (tag : List Char) : Nat → Nat → List Char → List (Nat × List Char)
  | 0, _, _ => []
  | _ + 1, _, [] => []
  | fuel + 1, i, c :: cs =>
    match matchOpenTag tag (c :: cs) with
    | some r2 =>
      match scanSplit charEqCI ('<' :: '/' :: (tag ++ ['>'])) r2 with
      | some (body, rest) =>
        (i, body) :: xmlTagFinditerF tag fuel (i + ((c :: cs).length - rest.length)) rest
      | none => xmlTagFinditerF tag fuel (i + 1) cs
    | none => xmlTagFinditerF tag fuel (i + 1) cs

/-- The search key of the structured-path position heuristic (line 149):
`sql_text[:40].replace(';', '').strip()`. -/
def xmlSearchKey (sql : List Char) : List Char :=
  pyStrip ((sql.take 40).filter (fun c => c != ';'))

/-- The structured-path approximate line (lines 149-150): find the search key
in the raw file text and count preceding newlines, defaulting to 1. -/
def xmlStructuredApproxLine (text sql : List Char) : Nat :=
  match findSub text (xmlSearchKey sql) with
  | some idx => (text.take idx).count '\n' + 1
  | none => 1

/-- Structured-parse-path processing of one qualifying element (lines 142-151):
`body` is the flattened descendant text of the element, `text` the raw file
text; placeholders are rewritten, the SQL normalized, and the approximate
line recovered by the search heuristic. -/
def xmlStructuredUnit (text tag body : List Char) : List Char × Nat × List Char :=
  let sql := normalize_sql (rewritePlaceholders body)
  (sql, xmlStructuredApproxLine text sql, '<' :: (tag ++ ['>']))

/-- Fallback-path processing of one regex match (lines 158-165): the
approximate line is the newline count before the match start plus one;
markup comments are stripped before the placeholder rewrites. -/
def xmlFallbackUnitOfMatch (text tag : List Char) (i : Nat) (body : List Char) :
    List Char × Nat × List Char :=
  let sql := normalize_sql (rewritePlaceholders (stripXmlComments body))
  (sql, (text.take i).count '\n' + 1, '<' :: (tag ++ ['>']))

/-- All fallback-path units for one tag name (lines 156-165). -/
def extract_sql_from_xml_fallback_tag (text tag : List Char) :
    List (List Char × Nat × List Char) :=
  (xmlTagFinditerF tag (text.length + 1) 0 text).map
    (fun p => xmlFallbackUnitOfMatch text tag p.1 p.2)

/-- The regex-fallback extraction loop over the five qualifying tag names
(`XML_TARGET_TAGS`, line 122).  Python iterates the set in an unspecified
order; the fixed order here only affects the interleaving of units of
different tags, and the inputs analyzed below match a single tag. -/
def extract_sql_from_xml_fallback (text : List Char) :
    List (List Char × Nat × List Char) :=
  (["select", "sql", "insert", "update", "delete"].map String.toList).flatMap
    (fun tag => extract_sql_from_xml_fallback_tag text tag)

example : ("ab".toList : List Char) = ['a', 'b'] := rfl

example :
    extract_sql_from_xml_fallback
      ("<select>SELECT a</select>x<select>SELECT b</select>".toList) =
    [("SELECT a;".toList, 1, "<select>".toList),
     ("SELECT b;".toList, 1, "<select>".toList)] := by decide

lemma mem_collapseRuns :
    ∀ (l : List Char) (x : Char), x ∈ collapseRuns l → x = ' ' ∨ x ∈ l := by
  intro l
  induction l with
  | nil => intro x hx; simp [collapseRuns] at hx
  | cons c cs ih =>
    intro x hx
    by_cases h : isPySpace c = true
    · match cs with
      | [] =>
        rw [collapseRuns_singleton_ws h] at hx
        simp at hx
        exact Or.inl hx
      | c2 :: t =>
        by_cases h2 : isPySpace c2 = true
        · rw [collapseRuns_ws_ws t h h2] at hx
          rcases ih x hx with h' | h'
          · exact Or.inl h'
          · exact Or.inr (List.mem_cons_of_mem _ h')
        · rw [collapseRuns_ws_nws t h (by simpa using h2)] at hx
          rcases List.mem_cons.mp hx with rfl | hx'
          · exact Or.inl rfl
          · rcases ih x hx' with h' | h'
            · exact Or.inl h'
            · exact Or.inr (List.mem_cons_of_mem _ h')
    · rw [collapseRuns_cons_nws cs (by simpa using h)] at hx
      rcases List.mem_cons.mp hx with rfl | hx'
      · exact Or.inr (List.mem_cons_self _ _)
      · rcases ih x hx' with h' | h'
        · exact Or.inl h'
        · exact Or.inr (List.mem_cons_of_mem _ h')

lemma head_collapseRuns_nws :
    ∀ (l : List Char) (x : Char), isPySpace x = false →
      (collapseRuns l).head? = some x → l.head? = some x := by
  intro l
  induction l with
  | nil => intro x _ h; simp [collapseRuns] at h
  | cons c cs ih =>
    intro x hx h
    by_cases hc : isPySpace c = true
    · match cs with
      | [] =>
        rw [collapseRuns_singleton_ws hc] at h
        simp at h
        subst h
        simp [isPySpace] at hx
      | c2 :: t =>
        by_cases h2 : isPySpace c2 = true
        · rw [collapseRuns_ws_ws t hc h2] at h
          have h3 := ih x hx h
          simp at h3
          subst h3
          rw [h2] at hx
          simp at hx
        · rw [collapseRuns_ws_nws t hc (by simpa using h2)] at h
          simp at h
          subst h
          simp [isPySpace] at hx
    · rw [collapseRuns_cons_nws cs (by simpa using hc)] at h
      simpa using h

lemma not_bodyClose_collapseRuns {t : List Char} (h : ¬ BodyClose t) :
    ¬ BodyClose (collapseRuns t) := by
  by_cases hm : rbrace ∈ t
  · have hhd : t.head? = some rbrace := by
      by_contra hne
      exact h (bodyClose_iff.mpr ⟨hm, hne⟩)
    match t, hhd with
    | c :: t2, hhd =>
      simp at hhd
      subst hhd
      rw [collapseRuns_cons_nws t2 (by decide)]
      exact not_bodyClose_cons_rb
  · refine not_bodyClose_of_not_mem ?_
    intro hmem
    rcases mem_collapseRuns t rbrace hmem with h' | h'
    · exact absurd h' (by decide)
    · exact hm h'

lemma phFree_collapseRuns {o : Char} (ho : isPySpace o = false) :
    ∀ l : List Char, PHFree o l → PHFree o (collapseRuns l) := by
  intro l
  induction l with
  | nil =>
    intro _
    show PHFree o []
    exact phFree_nil
  | cons c cs ih =>
    intro h
    by_cases hc : isPySpace c = true
    · match cs with
      | [] =>
        rw [collapseRuns_singleton_ws hc]
        exact phFree_of_not_mem_rb (by decide)
      | c2 :: t =>
        by_cases h2 : isPySpace c2 = true
        · rw [collapseRuns_ws_ws t hc h2]
          exact ih (phFree_tail h)
        · rw [collapseRuns_ws_nws t hc (by simpa using h2)]
          refine phFree_cons_iff.mpr ⟨?_, ih (phFree_tail h)⟩
          refine not_startsPH_of_ne _ ?_
          intro hsp
          rw [← hsp] at ho
          simp [isPySpace] at ho
    · rw [collapseRuns_cons_nws cs (by simpa using hc)]
      refine phFree_cons_iff.mpr ⟨?_, ih (phFree_tail h)⟩
      by_cases hco : c = o
      · subst hco
        intro hs
        have hhd := startsPH_second hs
        have hlb : cs.head? = some lbrace := head_collapseRuns_nws cs lbrace (by decide) hhd
        match cs, hlb with
        | d :: cs2, hlb =>
          simp at hlb
          subst hlb
          rw [collapseRuns_cons_nws cs2 (by decide)] at hs
          rw [startsPH_o_lb_iff] at hs
          have hin : ¬ StartsPH c (c :: lbrace :: cs2) := (phFree_cons_iff.mp h).1
          rw [startsPH_o_lb_iff] at hin
          exact not_bodyClose_collapseRuns hin hs
      · exact not_startsPH_of_ne _ hco

lemma isPH_of_within {o : Char} {t s : List Char} (h : IsPH o t) (hinf : t <:+: s) :
    IsPH o s := by
  rcases hinf with ⟨u, v, huv⟩
  rcases h with ⟨a, b, d, heq, hb, hnb⟩
  refine ⟨u ++ a, b, d ++ v, ?_, hb, hnb⟩
  rw [← huv, heq]
  simp

lemma phFree_of_within {o : Char} {t s : List Char} (h : PHFree o s) (hinf : t <:+: s) :
    PHFree o t := fun hph => h (isPH_of_within hph hinf)

lemma phFree_concat {o d : Char} (hd : d ≠ rbrace) {t : List Char} (h : PHFree o t) :
    PHFree o (t ++ [d]) := by
  rintro ⟨a, b, e, heq, hb, hnb⟩
  rcases List.eq_nil_or_concat e with rfl | ⟨e', x, rfl⟩
  · have hlast := congrArg List.getLast? heq
    rw [List.getLast?_concat] at hlast
    have hr : (a ++ o :: lbrace :: (b ++ [rbrace])).getLast? = some rbrace := by
      rw [show a ++ o :: lbrace :: (b ++ [rbrace]) = (a ++ o :: lbrace :: b) ++ [rbrace]
        by simp, List.getLast?_concat]
    rw [hr] at hlast
    simp at hlast
    exact hd hlast
  · rw [List.concat_eq_append] at heq
    have hform : a ++ o :: lbrace :: (b ++ rbrace :: (e' ++ [x])) =
        (a ++ o :: lbrace :: (b ++ rbrace :: e')) ++ [x] := by simp
    rw [hform] at heq
    have hx : d = x := by
      have hg := congrArg List.getLast? heq
      rw [List.getLast?_concat, List.getLast?_concat] at hg
      simpa using hg
    subst hx
    have ht : t = a ++ o :: lbrace :: (b ++ rbrace :: e') :=
      List.append_cancel_right heq
    exact h ⟨a, b, e', ht, hb, hnb⟩

lemma phFree_normalize_sql {o : Char} (ho : isPySpace o = false) {l : List Char}
    (h : PHFree o l) : PHFree o (normalize_sql l) := by
  have hcw : PHFree o (collapse_ws l) :=
    phFree_of_within (phFree_collapseRuns ho l h) (pyStrip_within (collapseRuns l))
  have hdef : normalize_sql l =
      if (collapse_ws l).getLast? = some ';' then collapse_ws l
      else collapse_ws l ++ [';'] := rfl
  rw [hdef]
  split
  · exact hcw
  · exact phFree_concat (by decide) hcw

lemma rewritePlaceholders_free (s : List Char) :
    PHFree '#' (rewritePlaceholders s) ∧ PHFree '$' (rewritePlaceholders s) := by
  constructor
  · refine pySubPH_preserves (show ('$' : Char) ≠ '#' from by decide)
      (by decide) (by decide) (by decide) (by decide)
      (show ('#' : Char) ∉ (['T', '0'] : List Char) from by decide)
      (by decide) (by decide) (by decide) ?_
    exact pySubPH_free (by decide) (by decide) (by decide) (by decide) (by decide) s
  · exact pySubPH_free (by decide) (by decide) (by decide) (by decide) (by decide) _

/-- The markup element of the end-to-end scenario, and its flattened body
and expected normalized SQL. -/
def mybatisDoc : List Char := "<select id=\"x\">SELECT * FROM t WHERE id = #\x7bid\x7d</select>".toList

/-- The flattened descendant text of the `select` element of `mybatisDoc`. -/
def mybatisBody : List Char := "SELECT * FROM t WHERE id = #\x7bid\x7d".toList

/-- The expected normalized SQL of the end-to-end scenario. -/
def mybatisSql : List Char := "SELECT * FROM t WHERE id = 1;".toList

/-- **C4.** Placeholder rewriting: after the two rewrites no `#{...}` or
`${...}` placeholder syntax survives in the normalized SQL (for every input);
a value placeholder is rewritten to the numeric token `1` and an
interpolated-identifier placeholder to the distinct token `T0`; and the
element `<select id="x">SELECT * FROM t WHERE id = #{id}</select>` yields
exactly one unit with normalized SQL `SELECT * FROM t WHERE id = 1;`, on the
structured-parse path (flattened body) and on the regex-fallback path. -/
theorem xml_placeholder_rewriting :
    (∀ s : List Char,
      PHFree '#' (normalize_sql (rewritePlaceholders s)) ∧
      PHFree '$' (normalize_sql (rewritePlaceholders s))) ∧
    rewritePlaceholders ('#' :: lbrace :: 'v' :: [rbrace]) = ['1'] ∧
    rewritePlaceholders ('$' :: lbrace :: 'v' :: [rbrace]) = ['T', '0'] ∧
    (['1'] : List Char) ≠ ['T', '0'] ∧
    xmlStructuredUnit mybatisDoc ("select".toList) mybatisBody =
      (mybatisSql, 1, "<select>".toList) ∧
    extract_sql_from_xml_fallback mybatisDoc = [(mybatisSql, 1, "<select>".toList)] := by
  refine ⟨?_, by decide, by decide, by decide, by decide, by decide⟩
  intro s
  have hfree := rewritePlaceholders_free s
  exact ⟨phFree_normalize_sql (by decide) hfree.1, phFree_normalize_sql (by decide) hfree.2⟩

/-- Witness for C4 at the concrete element body of the scenario. -/
theorem xml_placeholder_rewriting_witness :
    PHFree '#' (normalize_sql (rewritePlaceholders mybatisBody)) :=
  (xml_placeholder_rewriting.1 mybatisBody).1

/-- The approximate-line policy exactly as the specification words it: locate
the first 40 characters of the pre-terminator normalized SQL in the raw file
text and count the preceding newlines plus one, defaulting to line 1. -/
def specApproxLine (text sql : List Char) : Nat :=
  let preTerm := if sql.getLast? = some ';' then sql.dropLast else sql
  match findSub text (preTerm.take 40) with
  | some idx => (text.take idx).count '\n' + 1
  | none => 1

/-- A raw file whose SQL body also occurs verbatim before the element:
the fallback path reports the match-start line, not the searched line. -/
def fallbackDocC8 : List Char :=
  "SELECT a FROM b\n<select>SELECT a FROM b</select>".toList

/-- **C8 counterexample.** On the regex-fallback path the unit's line is the
newline count before the match start (line 2 here), not the value of the
prefix-search policy the claim describes (line 1 here): the claim is false
for fallback-path units. -/
theorem xml_fallback_line_counterexample :
    extract_sql_from_xml_fallback fallbackDocC8 =
      [("SELECT a FROM b;".toList, 2, "<select>".toList)] ∧
    specApproxLine fallbackDocC8 ("SELECT a FROM b;".toList) = 1 ∧ (2 : Nat) ≠ 1 := by
  exact ⟨by decide, by decide, by decide⟩

/-- **C8 (amended).** Structured-parse-path units compute their line by the
prefix-search policy (search key: first 40 characters of the normalized SQL
with all terminators removed and ends stripped — equal to the claim's
pre-terminator prefix whenever the SQL carries a single final terminator,
fits in 40 characters and has stripped ends); regex-fallback units instead
use the newline count before the regex match start plus one. -/
theorem xml_approx_line_policies :
    (∀ text tag body : List Char,
      xmlStructuredUnit text tag body =
        (normalize_sql (rewritePlaceholders body),
         xmlStructuredApproxLine text (normalize_sql (rewritePlaceholders body)),
         '<' :: (tag ++ ['>']))) ∧
    (∀ text tag : List Char,
      extract_sql_from_xml_fallback_tag text tag =
        (xmlTagFinditerF tag (text.length + 1) 0 text).map
          (fun p => (normalize_sql (rewritePlaceholders (stripXmlComments p.2)),
            (text.take p.1).count '\n' + 1, '<' :: (tag ++ ['>'])))) ∧
    (∀ text sql : List Char, sql.getLast? = some ';' → ';' ∉ sql.dropLast →
      sql.length ≤ 40 → pyStrip sql.dropLast = sql.dropLast →
      xmlStructuredApproxLine text sql = specApproxLine text sql) := by
  refine ⟨fun text tag body => rfl, fun text tag => rfl, ?_⟩
  intro text sql hlast hnotin hlen hstrip
  have hne : sql ≠ [] := by
    intro hnil
    rw [hnil] at hlast
    simp at hlast
  have hsplit : sql.dropLast ++ [';'] = sql := by
    have hgl := List.getLast?_eq_getLast sql hne
    rw [hgl] at hlast
    simp at hlast
    rw [← hlast]
    exact List.dropLast_append_getLast hne
  have hkey : xmlSearchKey sql = sql.dropLast := by
    unfold xmlSearchKey
    rw [List.take_of_length_le hlen]
    have hfil : sql.filter (fun c => c != ';') = sql.dropLast := by
      rw [← hsplit, List.filter_append]
      have h1 : sql.dropLast.filter (fun c => c != ';') = sql.dropLast := by
        rw [List.filter_eq_self]
        intro x hx
        simp only [bne_iff_ne, ne_eq, decide_eq_true_eq]
        intro hxe
        exact hnotin (hxe ▸ hx)
      rw [h1]
      simp
    rw [hfil, hstrip]
  have hpre : (if sql.getLast? = some ';' then sql.dropLast else sql).take 40 =
      sql.dropLast := by
    rw [if_pos hlast]
    refine List.take_of_length_le ?_
    have := List.length_dropLast sql
    omega
  have hdef1 : xmlStructuredApproxLine text sql =
      (match findSub text (xmlSearchKey sql) with
       | some idx => (text.take idx).count '\n' + 1
       | none => 1) := rfl
  have hdef2 : specApproxLine text sql =
      (match findSub text ((if sql.getLast? = some ';' then sql.dropLast else sql).take 40)
         with
       | some idx => (text.take idx).count '\n' + 1
       | none => 1) := rfl
  rw [hdef1, hdef2, hkey, hpre]

/-- Witness for the amended C8 with its hypotheses discharged at the
counterexample document's SQL. -/
theorem xml_approx_line_policies_witness :
    xmlStructuredApproxLine fallbackDocC8 ("SELECT a FROM b;".toList) =
      specApproxLine fallbackDocC8 ("SELECT a FROM b;".toList) :=
  xml_approx_line_policies.2.2 _ _ (by decide) (by decide) (by decide) (by decide)

/-! ## Balanced-brace extraction (`_extract_balanced_braces`, lines 172-194) -/

/-- The scanner state of `_extract_balanced_braces`: brace depth, whether the
scan is inside a double-quoted string, and whether the previous character was
an unconsumed backslash escape. -/
structure BBSt where
  depth : Int
  inStr : Bool
  esc : Bool
deriving DecidableEq

/-- One loop iteration of `_extract_balanced_braces` (lines 176-191), minus
the early return: quote- and escape-aware depth tracking. -/
def bbStep (st : BBSt) (ch : Char) : BBSt :=
  if st.inStr then
    if st.esc then { st with esc := false }
    else if ch = '\\' then { st with esc := true }
    else if ch = '"' then { st with inStr := false }
    else st
  else
    if ch = '"' then { st with inStr := true }
    else if ch = lbrace then { st with depth := st.depth + 1 }
    else if ch = rbrace then { st with depth := st.depth - 1 }
    else st

/-- The early-return condition of the loop (lines 191-193): a closing brace
outside any string that brings the depth to exactly zero. -/
def bbStopCond (st : BBSt) (ch : Char) : Bool :=
  !st.inStr && ch == rbrace && st.depth - 1 == 0

/-- The scanning loop of `_extract_balanced_braces`: consume characters,
returning the consumed span (inclusive) at the first stop, `none` at end of
input. -/
def bbGo (st : BBSt) (acc : List Char) : List Char → Option (List Char)
  | [] => none
  | ch :: rest =>
    if bbStopCond st ch then some (acc ++ [ch])
    else bbGo (bbStep st ch) (acc ++ [ch]) rest

/-- `_extract_balanced_braces(text, start_idx)`: scan `text[start_idx:]` from
depth 0, outside any string. -/
def extract_balanced_braces (text : List Char) (start : Nat) : Option (List Char) :=
  bbGo ⟨0, false, false⟩ [] (text.drop start)

/-- Declarative first-stop position: the least index `k` such that, with the
quote-aware state folded over the first `k` characters, the `k`-th character
is a closing brace processed outside a string at depth one. -/
def bbFirstStop (st0 : BBSt) (l : List Char) : Option Nat :=
  (List.range l.length).find? (fun k =>
    match l.get? k with
    | some c => bbStopCond ((l.take k).foldl bbStep st0) c
    | none => false)

lemma bbFirstStop_nil (st : BBSt) : bbFirstStop st [] = none := rfl

lemma bbFirstStop_cons (st : BBSt) (c : Char) (cs : List Char) :
    bbFirstStop st (c :: cs) =
      if bbStopCond st c then some 0
      else (bbFirstStop (bbStep st c) cs).map (· + 1) := by
  unfold bbFirstStop
  rw [show (c :: cs).length = cs.length + 1 from rfl, List.range_succ_eq_map,
    List.find?_cons]
  have hp : (match (c :: cs).get? 0 with
      | some c1 => bbStopCond (((c :: cs).take 0).foldl bbStep st) c1
      | none => false) = bbStopCond st c := rfl
  rw [hp]
  by_cases h : bbStopCond st c = true
  · rw [h]; rfl
  · rw [Bool.not_eq_true] at h
    rw [h]
    rw [List.find?_map]
    have hfun : ((fun k =>
        match (c :: cs).get? k with
        | some c1 => bbStopCond (((c :: cs).take k).foldl bbStep st) c1
        | none => false) ∘ Nat.succ) = (fun k =>
        match cs.get? k with
        | some c1 => bbStopCond ((cs.take k).foldl bbStep (bbStep st c)) c1
        | none => false) := by
      funext k
      rfl
    rw [hfun]
    rfl

lemma bbGo_spec : ∀ (l : List Char) (st : BBSt) (acc : List Char),
    bbGo st acc l = (bbFirstStop st l).map (fun k => acc ++ l.take (k + 1)) := by
  intro l
  induction l with
  | nil => intro st acc; simp [bbGo, bbFirstStop_nil]
  | cons c cs ih =>
    intro st acc
    rw [bbFirstStop_cons]
    by_cases h : bbStopCond st c = true
    · rw [if_pos h]
      simp only [bbGo, if_pos h, Option.map_some']
      simp [List.take_succ_cons]
    · rw [if_neg h]
      simp only [bbGo, if_neg h]
      rw [ih (bbStep st c) (acc ++ [c])]
      rw [Option.map_map]
      congr 1
      funext k
      simp [Function.comp, List.take_succ_cons]

/-- **C10.** The balanced-brace scanner is total and quote-aware: it returns
exactly the span from the start index through the first position where the
depth returns to zero (under quote-aware counting), and `none` when no such
position exists; a state inside a double-quoted region never changes the
depth and never triggers the stop; an escaped character (including an escaped
quote) keeps the scan inside the string.  Totality (never raising) is
intrinsic to the Lean function. -/
theorem extract_balanced_braces_spec :
    (∀ (text : List Char) (start : Nat),
      extract_balanced_braces text start =
        (bbFirstStop ⟨0, false, false⟩ (text.drop start)).map
          (fun k => (text.drop start).take (k + 1))) ∧
    (∀ (st : BBSt) (ch : Char), st.inStr = true → (bbStep st ch).depth = st.depth) ∧
    (∀ (st : BBSt) (ch : Char), st.inStr = true → st.esc = true →
      (bbStep st ch).inStr = true ∧ (bbStep st ch).esc = false) ∧
    (∀ (st : BBSt) (ch : Char), st.inStr = true → bbStopCond st ch = false) := by
  refine ⟨?_, ?_, ?_, ?_⟩
  · intro text start
    exact bbGo_spec (text.drop start) ⟨0, false, false⟩ []
  · rintro ⟨d, istr, es⟩ ch h
    simp only at h
    subst h
    simp only [bbStep]
    split_ifs <;> rfl
  · rintro ⟨d, istr, es⟩ ch h he
    simp only at h he
    subst h
    subst he
    exact ⟨rfl, rfl⟩
  · rintro ⟨d, istr, es⟩ ch h
    simp only at h
    subst h
    rfl

/-- Witness for C10: on `{"}"}` the scanner returns the whole span — the
closing brace inside the quoted region does not end the scan — and a
concrete in-string step keeps the depth. -/
theorem extract_balanced_braces_spec_witness :
    extract_balanced_braces (lbrace :: '"' :: rbrace :: '"' :: [rbrace]) 0 =
      some (lbrace :: '"' :: rbrace :: '"' :: [rbrace]) ∧
    (bbStep ⟨5, true, false⟩ lbrace).depth = 5 := by
  constructor
  · rw [extract_balanced_braces_spec.1 (lbrace :: '"' :: rbrace :: '"' :: [rbrace]) 0]
    decide
  · exact extract_balanced_braces_spec.2.1 ⟨5, true, false⟩ lbrace rfl

/-! ## Java extraction (`extract_sql_from_java`, lines 67-117) -/

/-- Scan the body of a Java string literal after its opening quote, following
`JAVA_STRING_LITERAL = re.compile(r'"((?:[^"\\]|\\.)*)"')` (line 71): a
backslash consumes the following character unless it is a newline (`.` does
not match a newline without DOTALL), an unescaped quote closes the literal.
Returns the raw body (group 1) and the input after the closing quote, or
`none` when no match completes from this opening quote. -/
def scanLitBody : List Char → Option (List Char × List Char)
  | [] => none
  | c :: cs =>
    if c = '"' then some ([], cs)
    else if c = '\\' then
      match cs with
      | [] => none
      | c2 :: cs2 =>
        if c2 = '\n' then none
        else (scanLitBody cs2).map (fun p => (c :: c2 :: p.1, p.2))
    else (scanLitBody cs).map (fun p => (c :: p.1, p.2))

lemma scanLitBody_cons_eq (c : Char) (cs : List Char) :
    scanLitBody (c :: cs) =
      if c = '"' then some ([], cs)
      else if c = '\\' then
        match cs with
        | [] => none
        | c2 :: cs2 =>
          if c2 = '\n' then none
          else (scanLitBody cs2).map (fun p => (c :: c2 :: p.1, p.2))
      else (scanLitBody cs).map (fun p => (c :: p.1, p.2)) := by
  cases cs with
  | nil => rfl
  | cons c2 cs2 => rfl

lemma scanLitBody_length :
    ∀ (n : Nat) (l : List Char), l.length ≤ n →
      ∀ b r, scanLitBody l = some (b, r) → r.length < l.length := by
  intro n
  induction n with
  | zero =>
    intro l hl b r h
    match l, hl with
    | [], _ => simp [scanLitBody] at h
  | succ n ih =>
    intro l hl b r h
    match l with
    | [] => simp [scanLitBody] at h
    | c :: cs =>
      by_cases hc : c = '"'
      · rw [scanLitBody_cons_eq, if_pos hc] at h
        injection h with h'
        injection h' with h1 h2
        subst h2
        simp
      · by_cases hb : c = '\\'
        · rw [scanLitBody_cons_eq, if_neg hc, if_pos hb] at h
          match cs, h with
          | c2 :: cs2, h =>
            change (if c2 = '\n' then none
              else Option.map (fun p => (c :: c2 :: p.1, p.2)) (scanLitBody cs2)) =
              some (b, r) at h
            by_cases hn : c2 = '\n'
            · rw [if_pos hn] at h
              simp at h
            · rw [if_neg hn] at h
              match hs : scanLitBody cs2 with
              | none => rw [hs] at h; simp at h
              | some (b2, r2) =>
                rw [hs] at h
                simp at h
                have hr : r2.length < cs2.length := by
                  refine ih cs2 ?_ b2 r2 hs
                  simp at hl
                  omega
                rw [← h.2]
                simp
                omega
        · rw [scanLitBody_cons_eq, if_neg hc, if_neg hb] at h
          match hs : scanLitBody cs with
          | none => rw [hs] at h; simp at h
          | some (b2, r2) =>
            rw [hs] at h
            simp at h
            have hr : r2.length < cs.length := by
              refine ih cs ?_ b2 r2 hs
              simp at hl
              omega
            rw [← h.2]
            simp
            omega

/-- Prepend a character to the pending gap: onto the gap of the next literal
when one follows, else onto the trailing gap. -/
def consGap (c : Char) : List (List Char × List Char) × List Char →
    List (List Char × List Char) × List Char
  | ([], t) => ([], c :: t)
  | ((g, b) :: ps, t) => ((c :: g, b) :: ps, t)

/-- `JAVA_STRING_LITERAL.finditer(arg_expr)` together with the text between
matches: the list of (gap before the literal, raw literal body) in source
order plus the trailing gap, fuelled by the input length.  A failed match
attempt resumes scanning one character later, exactly as `re.finditer`. -/
def jlitScanF : Nat → List Char → List (List Char × List Char) × List Char
  | 0, l => ([], l)
  | _ + 1, [] => ([], [])
  | fuel + 1, c :: cs =>
    if c = '"' then
      match scanLitBody cs with
      | some (body, rest) =>
        let r := jlitScanF fuel rest
        (([], body) :: r.1, r.2)
      | none => consGap c (jlitScanF fuel cs)
    else consGap c (jlitScanF fuel cs)

/-- The literal/gap decomposition of a call-argument text. -/
def jlitScan (l : List Char) : List (List Char × List Char) × List Char :=
  jlitScanF l.length l

/-- One pass of Python `s.replace(pat, repl)` for a two-character pattern:
left-to-right, non-overlapping, replacement text never rescanned. -/
def pyReplace2 (a b : Char) (r : List Char) : List Char → List Char
  | [] => []
  | [c] => [c]
  | c1 :: c2 :: cs =>
    if c1 = a ∧ c2 = b then r ++ pyReplace2 a b r cs
    else c1 :: pyReplace2 a b r (c2 :: cs)

/-- `unescape_java_string` (lines 42-47): the chain of two-character
`str.replace` calls, in source order. -/
def unescape_java_string (s : List Char) : List Char :=
  let s1 := pyReplace2 '\\' '"' ['"'] s
  let s2 := pyReplace2 '\\' '\'' ['\''] s1
  let s3 := pyReplace2 '\\' 'n' ['\n'] s2
  let s4 := pyReplace2 '\\' 'r' ['\r'] s3
  let s5 := pyReplace2 '\\' 't' ['\t'] s4
  pyReplace2 '\\' '\n' ['\n'] s5

/-- Lines 95-114: reconstruct the SQL of one matched call site from its
parenthesized argument text — concatenate the unescaped literals, with a
`' ? '` part at every gap whose stripped text is nonempty (including the
trailing gap), then normalize; `none` when the argument text holds no string
literal (the call site is skipped). -/
def reconstructCall (argExpr : List Char) : Option (List Char) :=
  let scan := jlitScan argExpr
  if scan.1 = [] then none
  else
    let parts := (scan.1.map (fun p =>
        (if pyStrip p.1 = [] then [] else [' ', '?', ' ']) ++ unescape_java_string p.2)).flatten
    let tailPart := if pyStrip scan.2 = [] then [] else [' ', '?', ' ']
    some (normalize_sql (parts ++ tailPart))

/-- The `ExtractedUnit`s (SQL text and context tag) produced by a list of
matched call sites: line 94 tags each reconstructed call site `call`, and a
call site with no literal contributes nothing. -/
def extract_java_calls (argExprs : List (List Char)) : List (List Char × List Char) :=
  argExprs.filterMap (fun a => (reconstructCall a).map (fun sql => (sql, "call".toList)))

/-- The reconstruction as the specification words it: the unescaped literals
in source order, joined by a single `?` (one space on each side) at every gap
— leading, inner, or trailing — that contains a non-whitespace (non-literal)
sub-expression. -/
def specCallJoin (pairs : List (List Char × List Char)) (tailGap : List Char) : List Char :=
  (pairs.map (fun p =>
      (if p.1.any (fun c => !(isPySpace c)) then [' ', '?', ' '] else []) ++
        unescape_java_string p.2)).flatten ++
    (if tailGap.any (fun c => !(isPySpace c)) then [' ', '?', ' '] else [])

lemma pyStrip_eq_nil_iff {g : List Char} :
    pyStrip g = [] ↔ ∀ c ∈ g, isPySpace c = true := by
  constructor
  · intro h c hc
    unfold pyStrip at h
    rw [List.reverse_eq_nil_iff, List.dropWhile_eq_nil_iff] at h
    conv_lhs at hc => rw [← List.takeWhile_append_dropWhile isPySpace g]
    rcases List.mem_append.mp hc with h' | h'
    · exact List.mem_takeWhile_imp h'
    · exact h c (List.mem_reverse.mpr h')
  · intro h
    unfold pyStrip
    rw [List.reverse_eq_nil_iff, List.dropWhile_eq_nil_iff]
    intro x hx
    refine h x ?_
    have h1 : x ∈ g.dropWhile isPySpace := List.mem_reverse.mp hx
    exact (List.dropWhile_sublist isPySpace).mem h1

lemma gap_part_eq (g : List Char) (Q : List Char) :
    (if pyStrip g = [] then [] else Q) =
      (if g.any (fun c => !(isPySpace c)) then Q else []) := by
  by_cases h : g.any (fun c => !(isPySpace c)) = true
  · rw [if_pos h]
    rw [List.any_eq_true] at h
    rcases h with ⟨x, hx, hxp⟩
    rw [if_neg ?_]
    intro hnil
    have := pyStrip_eq_nil_iff.mp hnil x hx
    simp [this] at hxp
  · rw [Bool.not_eq_true] at h
    have hall : ∀ c ∈ g, isPySpace c = true := by
      rw [List.any_eq_false] at h
      intro c hc
      have := h c hc
      simpa using this
    rw [if_pos (pyStrip_eq_nil_iff.mpr hall), h]
    simp

/-- **C3.** For every matched SQL-executing call site: a parenthesized
argument text with zero string literals yields no `ExtractedUnit`; one with
at least one literal yields exactly one unit, tagged `call`, whose normalized
SQL is the unescaped literals in source order joined by a single `?`
placeholder at every gap — before, between, or after literals — containing
non-whitespace (non-literal) text. -/
theorem java_call_reconstruction (argExpr : List Char) :
    ((jlitScan argExpr).1 = [] →
      reconstructCall argExpr = none ∧ extract_java_calls [argExpr] = []) ∧
    ((jlitScan argExpr).1 ≠ [] →
      reconstructCall argExpr =
        some (normalize_sql (specCallJoin (jlitScan argExpr).1 (jlitScan argExpr).2)) ∧
      extract_java_calls [argExpr] =
        [(normalize_sql (specCallJoin (jlitScan argExpr).1 (jlitScan argExpr).2),
          "call".toList)]) := by
  have hmap : ((jlitScan argExpr).1.map (fun p =>
      (if pyStrip p.1 = [] then [] else [' ', '?', ' ']) ++ unescape_java_string p.2)) =
      ((jlitScan argExpr).1.map (fun p =>
      (if p.1.any (fun c => !(isPySpace c)) then [' ', '?', ' '] else []) ++
        unescape_java_string p.2)) := by
    refine List.map_congr_left ?_
    intro p _
    rw [gap_part_eq]
  have hparts : ((jlitScan argExpr).1.map (fun p =>
      (if pyStrip p.1 = [] then [] else [' ', '?', ' ']) ++
        unescape_java_string p.2)).flatten ++
      (if pyStrip (jlitScan argExpr).2 = [] then [] else [' ', '?', ' ']) =
      specCallJoin (jlitScan argExpr).1 (jlitScan argExpr).2 := by
    unfold specCallJoin
    rw [hmap, gap_part_eq]
  have hdef : reconstructCall argExpr =
      if (jlitScan argExpr).1 = [] then none
      else some (normalize_sql (((jlitScan argExpr).1.map (fun p =>
        (if pyStrip p.1 = [] then [] else [' ', '?', ' ']) ++
          unescape_java_string p.2)).flatten ++
        (if pyStrip (jlitScan argExpr).2 = [] then [] else [' ', '?', ' ']))) := rfl
  constructor
  · intro h
    have hrc : reconstructCall argExpr = none := by
      rw [hdef, if_pos h]
    exact ⟨hrc, by simp [extract_java_calls, hrc]⟩
  · intro h
    have hrc : reconstructCall argExpr =
        some (normalize_sql (specCallJoin (jlitScan argExpr).1 (jlitScan argExpr).2)) := by
      rw [hdef, if_neg h, hparts]
    exact ⟨hrc, by simp [extract_java_calls, hrc]⟩

/-- Witness for C3 on the argument text `"SELECT a FROM t WHERE x = " + x`
(one literal, one non-literal trailing gap). -/
theorem java_call_reconstruction_witness :
    reconstructCall ("\"SELECT a FROM t WHERE x = \" + x".toList) =
      some (normalize_sql (specCallJoin
        (jlitScan ("\"SELECT a FROM t WHERE x = \" + x".toList)).1
        (jlitScan ("\"SELECT a FROM t WHERE x = \" + x".toList)).2)) :=
  ((java_call_reconstruction _).2 (by decide)).1

example : reconstructCall ("\"SELECT a\" + x + \"b\"".toList) =
    some ("SELECT a ? b;".toList) := by decide

example : reconstructCall ("conn, flag".toList) = none := by decide

/-! ## JSON parsing (`json.loads`) and mixed-output extraction (lines 197-217)

`json.loads` is modelled by an executable recursive-descent parser over
`List Char`, restricted to the constructs occurring in analyzer output:
numbers are integers (no floats/exponents), string escapes are the simple
ones (no `\uXXXX`), and a raised `JSONDecodeError` is `none`. -/

/-- JSON values. -/
inductive JValue where
  | null : JValue
  | bool (b : Bool) : JValue
  | num (n : Int) : JValue
  | str (s : List Char) : JValue
  | arr (xs : List JValue) : JValue
  | obj (kvs : List (List Char × JValue)) : JValue

/-- JSON inter-token whitespace. -/
def isJsonWs (c : Char) : Bool := c = ' ' || c = '\t' || c = '\n' || c = '\r'

/-- Skip inter-token whitespace. -/
def skipWs (l : List Char) : List Char := l.dropWhile isJsonWs

/-- Decode one simple string escape. -/
def jEscChar (e : Char) : Option Char :=
  if e = '"' then some '"'
  else if e = '\\' then some '\\'
  else if e = '/' then some '/'
  else if e = 'b' then some '\x08'
  else if e = 'f' then some '\x0c'
  else if e = 'n' then some '\n'
  else if e = 'r' then some '\r'
  else if e = 't' then some '\t'
  else none

/-- Parse a JSON string body after the opening quote: the decoded body and
the rest after the closing quote. -/
def parseJString : List Char → Option (List Char × List Char)
  | [] => none
  | c :: cs =>
    if c = '"' then some ([], cs)
    else if c = '\\' then
      match cs with
      | [] => none
      | e :: cs2 =>
        match jEscChar e with
        | some d => (parseJString cs2).map (fun p => (d :: p.1, p.2))
        | none => none
    else if c.toNat < 32 then none
    else (parseJString cs).map (fun p => (c :: p.1, p.2))

/-- Parse a nonempty digit run. -/
def parseJNat (l : List Char) : Option (Nat × List Char) :=
  let ds := l.takeWhile (fun c => c.isDigit)
  if ds = [] then none
  else some (ds.foldl (fun acc c => acc * 10 + (c.toNat - 48)) 0,
    l.dropWhile (fun c => c.isDigit))

/-- Parse a JSON integer (optional leading minus). -/
def parseJInt (l : List Char) : Option (Int × List Char) :=
  match l with
  | [] => none
  | c :: cs =>
    if c = '-' then (parseJNat cs).map (fun p => (-(p.1 : Int), p.2))
    else (parseJNat l).map (fun p => ((p.1 : Int), p.2))

/-- Parse the members of an object after its first non-`}` token, fuelled;
`pv` parses one value. -/
def parseJMembers (pv : List Char → Option (JValue × List Char)) :
    Nat → List Char → List (List Char × JValue) → Option (JValue × List Char)
  | 0, _, _ => none
  | fuel + 1, l, acc =>
    match skipWs l with
    | [] => none
    | c :: cs =>
      if c = '"' then
        match parseJString cs with
        | none => none
        | some (key, r1) =>
          match skipWs r1 with
          | [] => none
          | c2 :: r2 =>
            if c2 = ':' then
              match pv r2 with
              | none => none
              | some (v, r3) =>
                match skipWs r3 with
                | [] => none
                | c3 :: r4 =>
                  if c3 = ',' then parseJMembers pv fuel r4 (acc ++ [(key, v)])
                  else if c3 = rbrace then some (.obj (acc ++ [(key, v)]), r4)
                  else none
            else none
      else none

/-- Parse the items of an array after its first non-`]` token, fuelled. -/
def parseJItems (pv : List Char → Option (JValue × List Char)) :
    Nat → List Char → List JValue → Option (JValue × List Char)
  | 0, _, _ => none
  | fuel + 1, l, acc =>
    match pv l with
    | none => none
    | some (v, r1) =>
      match skipWs r1 with
      | [] => none
      | c :: r2 =>
        if c = ',' then parseJItems pv fuel r2 (acc ++ [v])
        else if c = ']' then some (.arr (acc ++ [v]), r2)
        else none

/-- Parse one JSON value (fuelled by nesting depth). -/
def parseJVal : Nat → List Char → Option (JValue × List Char)
  | 0, _ => none
  | fuel + 1, l =>
    match skipWs l with
    | [] => none
    | c :: cs =>
      if c = lbrace then
        match skipWs cs with
        | [] => none
        | c2 :: cs2 =>
          if c2 = rbrace then some (.obj [], cs2)
          else parseJMembers (parseJVal fuel) fuel (c2 :: cs2) []
      else if c = '[' then
        match skipWs cs with
        | [] => none
        | c2 :: cs2 =>
          if c2 = ']' then some (.arr [], cs2)
          else parseJItems (parseJVal fuel) fuel (c2 :: cs2) []
      else if c = '"' then (parseJString cs).map (fun p => (.str p.1, p.2))
      else if c = 't' then
        (matchPre charEq ('r' :: 'u' :: 'e' :: []) cs).map (fun r => (.bool true, r))
      else if c = 'f' then
        (matchPre charEq ('a' :: 'l' :: 's' :: 'e' :: []) cs).map (fun r => (.bool false, r))
      else if c = 'n' then
        (matchPre charEq ('u' :: 'l' :: 'l' :: []) cs).map (fun r => (.null, r))
      else (parseJInt (c :: cs)).map (fun p => (.num p.1, p.2))

/-- `json.loads(l)` (restricted as documented): one value, then only
whitespace. -/
def pyJsonLoads (l : List Char) : Option JValue :=
  match parseJVal (l.length + 1) l with
  | some (v, rest) => if skipWs rest = [] then some v else none
  | none => none

example : pyJsonLoads ("\x7b \"findings\": [] \x7d".toList) =
    some (.obj [("findings".toList, .arr [])]) := rfl

example : pyJsonLoads ("\x7b\"a\": [1, -2], \"b\": null\x7d".toList) =
    some (.obj [(['a'], .arr [.num 1, .num (-2)]), (['b'], .null)]) := rfl

/-- The anchor substring `{"findings"` of tier 2 (line 204). -/
def findingsAnchor : List Char := lbrace :: '"' :: ("findings".toList ++ ['"'])

/-- The token `"findings"` looked for near each tier-3 candidate (line 213). -/
def findingsToken : List Char := '"' :: ("findings".toList ++ ['"'])

/-- The indices of every opening brace: `re.finditer(r'\{', stdout)`
(line 211). -/
def bracePositions (l : List Char) : List Nat :=
  (List.range l.length).filter (fun i => l.get? i = some lbrace)

/-- The tier-3 candidate loop (lines 211-216): for each opening brace whose
following 200 characters contain the token, attempt balanced extraction; a
found balanced span is parsed immediately and a parse failure there raises
(modelled `none`) rather than moving on; only a failed balanced extraction
moves on to the next candidate. -/
def tier3Go (stdout : List Char) : List Nat → Option JValue
  | [] => none
  | i :: rest =>
    if containsSub ((stdout.drop i).take 200) findingsToken then
      match extract_balanced_braces stdout i with
      | some block => pyJsonLoads block
      | none => tier3Go stdout rest
    else tier3Go stdout rest

/-- `_parse_astgrep_mixed_output` (lines 197-217): tier 1 parses the whole
stream; tier 2 locates the anchor and parses the balanced span from it,
falling through to tier 3 only when no balanced span exists there; tier 3
scans all opening-brace candidates.  A raised parse error is `none`. -/
def parse_astgrep_mixed_output (stdout : List Char) : Option JValue :=
  match pyJsonLoads stdout with
  | some v => some v
  | none =>
    match findSub stdout findingsAnchor with
    | some idx =>
      match extract_balanced_braces stdout idx with
      | some block => pyJsonLoads block
      | none => tier3Go stdout (bracePositions stdout)
    | none => tier3Go stdout (bracePositions stdout)

/-- The counterexample stream: one non-JSON log line followed by one valid
result object holding a `findings` collection. -/
def c2Stream : List Char :=
  "\x7boops \"findings\"\x7d\n\x7b \"findings\": [] \x7d".toList

/-- **C2 counterexample.** The stream consists of an arbitrary non-structured
line (`{oops "findings"}` — balanced but not JSON) followed by one valid
result object with a `findings` collection, yet extraction fails: the first
tier-3 candidate's balanced span fails to parse and the code raises instead
of moving on to the next candidate, so the claimed success guarantee (and the
claimed keep-trying tier-3 behaviour) is false. -/
theorem mixed_output_counterexample :
    parse_astgrep_mixed_output c2Stream = none ∧
    pyJsonLoads ("\x7b \"findings\": [] \x7d".toList) =
      some (.obj [("findings".toList, .arr [])]) ∧
    pyJsonLoads ("\x7boops \"findings\"\x7d".toList) = none := by
  refine ⟨rfl, rfl, rfl⟩

lemma tier3Go_append_skip (stdout : List Char) (ps1 : List Nat)
    (hskip : ∀ j ∈ ps1, containsSub ((stdout.drop j).take 200) findingsToken = false ∨
      extract_balanced_braces stdout j = none) (rest : List Nat) :
    tier3Go stdout (ps1 ++ rest) = tier3Go stdout rest := by
  induction ps1 with
  | nil => rfl
  | cons j ps1' ih =>
    rw [List.cons_append, tier3Go]
    rcases hskip j (List.mem_cons_self _ _) with h | h
    · rw [h]
      simp only [Bool.false_eq_true, if_false]
      exact ih fun x hx => hskip x (List.mem_cons_of_mem _ hx)
    · rw [h]
      split
      · exact ih fun x hx => hskip x (List.mem_cons_of_mem _ hx)
      · exact ih fun x hx => hskip x (List.mem_cons_of_mem _ hx)

/-- **C2 (amended).** Extraction attempts the three tiers in order, but in
tiers 2 and 3 a candidate whose balanced span fails to parse aborts extraction
(tier 3 moves on only past candidates whose balanced extraction itself
fails).  Consequently: (tier 2) if the whole stream does not parse, the
anchor's first occurrence starts a balanced span equal to a parseable object
text, extraction returns that object; (tier 3) if additionally no anchor
occurs, every earlier brace candidate lacks the token window or a balanced
span, and the given candidate has the token and a parseable balanced span,
extraction returns its object. -/
theorem mixed_output_amended :
    (∀ (junk objText : List Char) (v : JValue),
      pyJsonLoads (junk ++ objText) = none →
      findSub (junk ++ objText) findingsAnchor = some junk.length →
      extract_balanced_braces (junk ++ objText) junk.length = some objText →
      pyJsonLoads objText = some v →
      parse_astgrep_mixed_output (junk ++ objText) = some v) ∧
    (∀ (stdout : List Char) (ps1 ps2 : List Nat) (i : Nat) (block : List Char)
        (v : JValue),
      pyJsonLoads stdout = none →
      findSub stdout findingsAnchor = none →
      bracePositions stdout = ps1 ++ i :: ps2 →
      (∀ j ∈ ps1, containsSub ((stdout.drop j).take 200) findingsToken = false ∨
        extract_balanced_braces stdout j = none) →
      containsSub ((stdout.drop i).take 200) findingsToken = true →
      extract_balanced_braces stdout i = some block →
      pyJsonLoads block = some v →
      parse_astgrep_mixed_output stdout = some v) := by
  constructor
  · intro junk objText v h1 h2 h3 h4
    unfold parse_astgrep_mixed_output
    rw [h1, h2]
    change (match extract_balanced_braces (junk ++ objText) junk.length with
      | some block => pyJsonLoads block
      | none => tier3Go (junk ++ objText) (bracePositions (junk ++ objText))) = some v
    rw [h3]
    exact h4
  · intro stdout ps1 ps2 i block v h1 h2 h3 hskip h5 h6 h7
    unfold parse_astgrep_mixed_output
    rw [h1, h2]
    change tier3Go stdout (bracePositions stdout) = some v
    rw [h3, tier3Go_append_skip stdout ps1 hskip]
    change (if containsSub ((stdout.drop i).take 200) findingsToken then
      match extract_balanced_braces stdout i with
      | some block => pyJsonLoads block
      | none => tier3Go stdout ps2
      else tier3Go stdout ps2) = some v
    rw [if_pos h5, h6]
    exact h7

/-- Witness for the amended C2: a stream whose first brace candidate has no
balanced span (so tier 3 moves past it) and whose second candidate is the
result object. -/
theorem mixed_output_amended_witness :
    parse_astgrep_mixed_output ("\x7bx\n\x7b \"findings\": [] \x7d".toList) =
      some (.obj [("findings".toList, .arr [])]) := by
  refine mixed_output_amended.2 ("\x7bx\n\x7b \"findings\": [] \x7d".toList) [0] []
    3 ("\x7b \"findings\": [] \x7d".toList) (.obj [("findings".toList, .arr [])])
    rfl (by decide) (by decide) ?_ (by decide) (by decide) rfl
  intro j hj
  simp at hj
  subst hj
  right
  decide

/-! ## Analyzer invocation (`run_astgrep`, lines 220-235) -/

/-- A completed `subprocess.run` result. -/
structure ProcResult where
  returncode : Int
  stdout : List Char
  stderr : List Char

/-- The two fatal outcomes of `run_astgrep`: a non-zero exit (line 231,
raised after printing the captured stdout and stderr) and a result-extraction
failure (line 235, whose message embeds the captured stdout verbatim). -/
inductive RunErr where
  | procFail (stdout stderr : List Char) (code : Int) : RunErr
  | parseFail (stdout : List Char) : RunErr

/-- The retry condition (line 224): the first invocation failed and its
stderr reports the quiet-mode flag as an unknown argument. -/
def needsRetry (p : ProcResult) : Bool :=
  decide (p.returncode ≠ 0) && containsSub p.stderr ("Found argument".toList)
    && containsSub p.stderr ('-' :: ['q'])

/-- `run_astgrep` over its two possible invocations: `pq` is the result of
the quiet-mode attempt and `pnoq` of the attempt without the flag, consulted
exactly when the retry condition holds — there is no third attempt. -/
def run_astgrep (pq pnoq : ProcResult) : Except RunErr JValue :=
  let proc := if needsRetry pq then pnoq else pq
  if proc.returncode ≠ 0 then .error (.procFail proc.stdout proc.stderr proc.returncode)
  else
    match parse_astgrep_mixed_output proc.stdout with
    | some v => .ok v
    | none => .error (.parseFail proc.stdout)

lemma run_astgrep_of_retry_false {pq : ProcResult} (h : needsRetry pq = false)
    (p2 : ProcResult) :
    run_astgrep pq p2 =
      (if pq.returncode ≠ 0 then
        Except.error (.procFail pq.stdout pq.stderr pq.returncode)
      else
        match parse_astgrep_mixed_output pq.stdout with
        | some v => .ok v
        | none => .error (.parseFail pq.stdout)) := by
  unfold run_astgrep
  rw [h]
  rfl

lemma run_astgrep_of_retry_true {pq : ProcResult} (h : needsRetry pq = true)
    (p2 : ProcResult) :
    run_astgrep pq p2 =
      (if p2.returncode ≠ 0 then
        Except.error (.procFail p2.stdout p2.stderr p2.returncode)
      else
        match parse_astgrep_mixed_output p2.stdout with
        | some v => .ok v
        | none => .error (.parseFail p2.stdout)) := by
  unfold run_astgrep
  rw [h]
  rfl

/-- **C7.** The quiet-mode attempt is retried exactly once, if and only if it
failed with stderr reporting the unsupported flag; without a retry the first
result is final (the second invocation is never consulted); with a retry the
second result is final even if it fails the same way (no third attempt); in
either case any non-zero exit aborts with a fatal error carrying the captured
stdout and stderr verbatim, and exhaustion of the extraction tiers aborts
with a fatal error carrying the captured stdout verbatim. -/
theorem run_astgrep_retry_policy (pq p2 p2' : ProcResult) :
    (needsRetry pq = true ↔
      pq.returncode ≠ 0 ∧ containsSub pq.stderr ("Found argument".toList) = true ∧
        containsSub pq.stderr ('-' :: ['q']) = true) ∧
    (needsRetry pq = false → run_astgrep pq p2 = run_astgrep pq p2') ∧
    (needsRetry pq = false → pq.returncode ≠ 0 →
      run_astgrep pq p2 = .error (.procFail pq.stdout pq.stderr pq.returncode)) ∧
    (needsRetry pq = false → pq.returncode = 0 →
      parse_astgrep_mixed_output pq.stdout = none →
      run_astgrep pq p2 = .error (.parseFail pq.stdout)) ∧
    (needsRetry pq = false → pq.returncode = 0 →
      ∀ v, parse_astgrep_mixed_output pq.stdout = some v → run_astgrep pq p2 = .ok v) ∧
    (needsRetry pq = true → p2.returncode ≠ 0 →
      run_astgrep pq p2 = .error (.procFail p2.stdout p2.stderr p2.returncode)) ∧
    (needsRetry pq = true → p2.returncode = 0 →
      parse_astgrep_mixed_output p2.stdout = none →
      run_astgrep pq p2 = .error (.parseFail p2.stdout)) ∧
    (needsRetry pq = true → p2.returncode = 0 →
      ∀ v, parse_astgrep_mixed_output p2.stdout = some v → run_astgrep pq p2 = .ok v) := by
  refine ⟨?_, ?_, ?_, ?_, ?_, ?_, ?_, ?_⟩
  · unfold needsRetry
    simp [Bool.and_eq_true, and_assoc]
  · intro h
    rw [run_astgrep_of_retry_false h, run_astgrep_of_retry_false h]
  · intro h hrc
    rw [run_astgrep_of_retry_false h, if_pos hrc]
  · intro h hrc hp
    rw [run_astgrep_of_retry_false h, if_neg (by simpa using hrc), hp]
  · intro h hrc v hp
    rw [run_astgrep_of_retry_false h, if_neg (by simpa using hrc), hp]
  · intro h hrc
    rw [run_astgrep_of_retry_true h, if_pos hrc]
  · intro h hrc hp
    rw [run_astgrep_of_retry_true h, if_neg (by simpa using hrc), hp]
  · intro h hrc v hp
    rw [run_astgrep_of_retry_true h, if_neg (by simpa using hrc), hp]

/-- Witness for C7: a first run rejecting `-q` is retried once and the second
run's output is parsed. -/
theorem run_astgrep_retry_policy_witness :
    run_astgrep ⟨1, [], "Found argument -q".toList⟩
        ⟨0, "\x7b\"findings\": []\x7d".toList, []⟩ =
      .ok (.obj [("findings".toList, .arr [])]) :=
  (run_astgrep_retry_policy ⟨1, [], "Found argument -q".toList⟩
      ⟨0, "\x7b\"findings\": []\x7d".toList, []⟩
      ⟨0, [], []⟩).2.2.2.2.2.2.2 (by decide) (by decide) _ rfl

/-! ## Finding remapping (`main`, lines 312-342) -/

/-- One provenance-map record (lines 293-298). -/
structure MapEntry where
  source_file : List Char
  approx_start_line : Nat
  context : List Char
  normalized_sql : List Char

/-- Python `dict.get(k)` over an insertion-ordered association list. -/
def dictGet {α : Type} (m : List (List Char × α)) (k : List Char) : Option α :=
  (m.find? (fun p => decide (p.1 = k))).map (fun p => p.2)

/-- Python `d[k] = v` over an insertion-ordered association list: replace in
place when the key exists, else append. -/
def dictSet {α : Type} (m : List (List Char × α)) (k : List Char) (v : α) :
    List (List Char × α) :=
  if (m.find? (fun p => decide (p.1 = k))).isSome then
    m.map (fun p => if p.1 = k then (k, v) else p)
  else m ++ [(k, v)]

lemma dictGet_dictSet_self {α : Type} (m : List (List Char × α)) (k : List Char) (v : α) :
    dictGet (dictSet m k v) k = some v := by
  unfold dictSet
  by_cases h : (m.find? (fun p => decide (p.1 = k))).isSome = true
  · rw [if_pos h]
    induction m with
    | nil => simp [List.find?] at h
    | cons p ps ih =>
      by_cases hp : p.1 = k
      · unfold dictGet
        rw [List.map_cons, if_pos hp, List.find?_cons_of_pos _ (by simp)]
        rfl
      · unfold dictGet
        rw [List.map_cons, if_neg hp, List.find?_cons_of_neg _ (by simp [hp])]
        rw [List.find?_cons_of_neg _ (by simp [hp])] at h
        exact ih h
  · rw [if_neg h]
    rw [Bool.not_eq_true] at h
    have hnone : m.find? (fun p => decide (p.1 = k)) = none := by
      cases hf : m.find? (fun p => decide (p.1 = k)) with
      | none => rfl
      | some q => rw [hf] at h; simp at h
    rw [List.find?_eq_none] at hnone
    clear h
    rename' hnone => h
    induction m with
    | nil =>
      unfold dictGet
      rw [List.nil_append, List.find?_cons_of_pos _ (by simp)]
      rfl
    | cons p ps ih =>
      unfold dictGet
      have hp : ¬ p.1 = k := by
        have := h p (List.mem_cons_self _ _)
        simpa using this
      rw [List.cons_append, List.find?_cons_of_neg _ (by simp [hp])]
      exact ih fun x hx => h x (List.mem_cons_of_mem _ hx)

lemma dictGet_dictSet_ne {α : Type} (m : List (List Char × α)) (k k' : List Char) (v : α)
    (h : k' ≠ k) : dictGet (dictSet m k v) k' = dictGet m k' := by
  unfold dictSet
  by_cases hs : (m.find? (fun p => decide (p.1 = k))).isSome = true
  · rw [if_pos hs]
    clear hs
    induction m with
    | nil => rfl
    | cons p ps ih =>
      by_cases hp : p.1 = k
      · unfold dictGet
        rw [List.map_cons, if_pos hp, List.find?_cons_of_neg _ (by simp [Ne.symm h]),
          List.find?_cons_of_neg _ (by simp [hp ▸ Ne.symm h])]
        exact ih
      · unfold dictGet
        rw [List.map_cons, if_neg hp]
        by_cases hk' : p.1 = k'
        · rw [List.find?_cons_of_pos _ (by simp [hk']),
            List.find?_cons_of_pos _ (by simp [hk'])]
        · rw [List.find?_cons_of_neg _ (by simp [hk']),
            List.find?_cons_of_neg _ (by simp [hk'])]
          exact ih
  · rw [if_neg hs]
    unfold dictGet
    rw [List.find?_append]
    by_cases hm : (m.find? (fun p => decide (p.1 = k'))).isSome = true
    · rcases Option.isSome_iff_exists.mp hm with ⟨q, hq⟩
      rw [hq]
      rfl
    · rw [Bool.not_eq_true] at hm
      have hmn : m.find? (fun p => decide (p.1 = k')) = none := by
        cases hf : m.find? (fun p => decide (p.1 = k')) with
        | none => rfl
        | some q => rw [hf] at hm; simp at hm
      rw [hmn, List.find?_cons_of_neg _ (by simp [Ne.symm h]), List.find?_nil]
      rfl

/-- Python truthiness (`if not fpath`) of a JSON value. -/
def jFalsy : JValue → Bool
  | .null => true
  | .bool b => !b
  | .num n => n == 0
  | .str s => s.isEmpty
  | .arr xs => xs.isEmpty
  | .obj kvs => kvs.isEmpty

/-- The synthetic remapped location (lines 330-336). -/
def mappedLoc (e : MapEntry) : JValue :=
  .obj [("file".toList, .str e.source_file),
        ("start_line".toList, .num e.approx_start_line),
        ("end_line".toList, .num e.approx_start_line),
        ("start_column".toList, .num 1),
        ("end_column".toList, .num 120)]

/-- The remapped finding dictionary (lines 337-341): copy, replace
`location`, attach `extracted_from`, `context` and `normalized_sql`. -/
def remapKvs (kvs : List (List Char × JValue)) (fpath : List Char) (e : MapEntry) :
    List (List Char × JValue) :=
  dictSet (dictSet (dictSet (dictSet kvs ("location".toList) (mappedLoc e))
    ("extracted_from".toList) (.str fpath)) ("context".toList) (.str e.context))
    ("normalized_sql".toList) (.str e.normalized_sql)

/-- `fd.get('location', {})` followed by `loc.get('file')` (lines 315-316).
A non-dictionary `location` would crash `loc.get` in the script; the analyzed
result shapes keep it a dictionary, and the crash is modelled as no path. -/
def findingPath (fd : List (List Char × JValue)) : Option JValue :=
  match (dictGet fd ("location".toList)).getD (.obj []) with
  | .obj lkvs => dictGet lkvs ("file".toList)
  | _ => none

/-- The two-step provenance lookup (lines 319-323): the reported path first,
then the path resolved to absolute form by `resolveAbs` (an abstract stand-in
for `str((Path.cwd() / fpath).resolve())`). -/
def remapResolved (resolveAbs : List Char → List Char)
    (mapping : List (List Char × MapEntry)) (fpath : List Char) : Option MapEntry :=
  match dictGet mapping fpath with
  | some e => some e
  | none => dictGet mapping (resolveAbs fpath)

/-- Lines 314-342 for one finding; `none` is the loop's `continue` without
appending (the finding is dropped).  A non-string `file` value would crash
the script at the absolute-path retry and is modelled as a skip. -/
def remapFinding (resolveAbs : List Char → List Char)
    (mapping : List (List Char × MapEntry)) (fd : List (List Char × JValue)) :
    Option JValue :=
  match findingPath fd with
  | none => none
  | some fv =>
    if jFalsy fv then none
    else
      match fv with
      | .str fpath =>
        match remapResolved resolveAbs mapping fpath with
        | none => some (.obj fd)
        | some e => some (.obj (remapKvs fd fpath e))
      | _ => none

/-- The remapping loop over all findings (lines 313-342). -/
def remapFindings (resolveAbs : List Char → List Char)
    (mapping : List (List Char × MapEntry))
    (fds : List (List (List Char × JValue))) : List JValue :=
  fds.filterMap (remapFinding resolveAbs mapping)

/-- **C1 counterexample.** A finding carrying no `location.file` path is
silently dropped by lines 317-318 (`if not fpath: continue`): the final
findings list is empty rather than containing the finding once. -/
theorem finding_drop_counterexample :
    remapFindings (fun s => s) [] [[("rule_id".toList, JValue.str ['r'])]] = [] ∧
    remapFindings (fun s => s) [] [[("rule_id".toList, JValue.str ['r'])]] ≠
      [JValue.obj [("rule_id".toList, JValue.str ['r'])]] := by
  refine ⟨rfl, ?_⟩
  intro h
  rw [show remapFindings (fun s => s) [] [[("rule_id".toList, JValue.str ['r'])]] =
    [] from rfl] at h
  exact List.noConfusion h

/-- **C1 (amended).** Every finding whose `location.file` is a non-empty
string appears exactly once in the final list: remapped — location replaced
by the synthetic location, `extracted_from`, `context` and `normalized_sql`
attached — when its path (or the path resolved to absolute form) is in the
provenance map, and passed through unchanged otherwise; findings lacking a
non-empty string path are skipped.  The final list is the `filterMap` of the
per-finding step. -/
theorem finding_remap_amended :
    (∀ (resolveAbs : List Char → List Char) (mapping : List (List Char × MapEntry))
        (fds : List (List (List Char × JValue))),
      remapFindings resolveAbs mapping fds =
        fds.filterMap (remapFinding resolveAbs mapping)) ∧
    (∀ (resolveAbs : List Char → List Char) (mapping : List (List Char × MapEntry))
        (fd lkvs : List (List Char × JValue)) (fpath : List Char),
      dictGet fd ("location".toList) = some (.obj lkvs) →
      dictGet lkvs ("file".toList) = some (.str fpath) →
      fpath ≠ [] →
      ((dictGet mapping fpath = none → dictGet mapping (resolveAbs fpath) = none →
          remapFinding resolveAbs mapping fd = some (.obj fd)) ∧
       (∀ e, dictGet mapping fpath = some e →
          remapFinding resolveAbs mapping fd = some (.obj (remapKvs fd fpath e))) ∧
       (∀ e, dictGet mapping fpath = none →
          dictGet mapping (resolveAbs fpath) = some e →
          remapFinding resolveAbs mapping fd = some (.obj (remapKvs fd fpath e))))) ∧
    (∀ (fd : List (List Char × JValue)) (fpath : List Char) (e : MapEntry),
      dictGet (remapKvs fd fpath e) ("location".toList) = some (mappedLoc e) ∧
      dictGet (remapKvs fd fpath e) ("extracted_from".toList) = some (.str fpath) ∧
      dictGet (remapKvs fd fpath e) ("context".toList) = some (.str e.context) ∧
      dictGet (remapKvs fd fpath e) ("normalized_sql".toList) =
        some (.str e.normalized_sql)) := by
  refine ⟨fun _ _ _ => rfl, ?_, ?_⟩
  · intro resolveAbs mapping fd lkvs fpath hloc hfile hfp
    have h1 : findingPath fd = some (JValue.str fpath) := by
      unfold findingPath
      rw [hloc, Option.getD_some]
      exact hfile
    have hjf : jFalsy (JValue.str fpath) = false := by
      simp [jFalsy, hfp]
    refine ⟨?_, ?_, ?_⟩
    · intro hm1 hm2
      have hres : remapResolved resolveAbs mapping fpath = none := by
        unfold remapResolved
        rw [hm1]
        exact hm2
      unfold remapFinding
      rw [h1]
      show (if jFalsy (JValue.str fpath) = true then none
        else match remapResolved resolveAbs mapping fpath with
          | none => some (JValue.obj fd)
          | some e => some (JValue.obj (remapKvs fd fpath e))) = some (JValue.obj fd)
      rw [hjf]
      show (match remapResolved resolveAbs mapping fpath with
        | none => some (JValue.obj fd)
        | some e => some (JValue.obj (remapKvs fd fpath e))) = some (JValue.obj fd)
      rw [hres]
    · intro e hm1
      have hres : remapResolved resolveAbs mapping fpath = some e := by
        unfold remapResolved
        rw [hm1]
      unfold remapFinding
      rw [h1]
      show (if jFalsy (JValue.str fpath) = true then none
        else match remapResolved resolveAbs mapping fpath with
          | none => some (JValue.obj fd)
          | some e => some (JValue.obj (remapKvs fd fpath e))) =
        some (JValue.obj (remapKvs fd fpath e))
      rw [hjf]
      show (match remapResolved resolveAbs mapping fpath with
        | none => some (JValue.obj fd)
        | some e => some (JValue.obj (remapKvs fd fpath e))) =
        some (JValue.obj (remapKvs fd fpath e))
      rw [hres]
    · intro e hm1 hm2
      have hres : remapResolved resolveAbs mapping fpath = some e := by
        unfold remapResolved
        rw [hm1]
        exact hm2
      unfold remapFinding
      rw [h1]
      show (if jFalsy (JValue.str fpath) = true then none
        else match remapResolved resolveAbs mapping fpath with
          | none => some (JValue.obj fd)
          | some e => some (JValue.obj (remapKvs fd fpath e))) =
        some (JValue.obj (remapKvs fd fpath e))
      rw [hjf]
      show (match remapResolved resolveAbs mapping fpath with
        | none => some (JValue.obj fd)
        | some e => some (JValue.obj (remapKvs fd fpath e))) =
        some (JValue.obj (remapKvs fd fpath e))
      rw [hres]
  · intro fd fpath e
    unfold remapKvs
    refine ⟨?_, ?_, ?_, ?_⟩
    · rw [dictGet_dictSet_ne _ _ _ _ (by decide), dictGet_dictSet_ne _ _ _ _ (by decide),
        dictGet_dictSet_ne _ _ _ _ (by decide), dictGet_dictSet_self]
    · rw [dictGet_dictSet_ne _ _ _ _ (by decide), dictGet_dictSet_ne _ _ _ _ (by decide),
        dictGet_dictSet_self]
    · rw [dictGet_dictSet_ne _ _ _ _ (by decide), dictGet_dictSet_self]
    · rw [dictGet_dictSet_self]

/-- Witness for the amended C1: a path-bearing finding absent from the
provenance map is passed through unchanged. -/
theorem finding_remap_amended_witness :
    remapFinding (fun s => s) []
      [("location".toList, JValue.obj [("file".toList, JValue.str ['f'])])] =
    some (JValue.obj
      [("location".toList, JValue.obj [("file".toList, JValue.str ['f'])])]) :=
  (finding_remap_amended.2.1 (fun s => s) []
    [("location".toList, JValue.obj [("file".toList, JValue.str ['f'])])]
    [("file".toList, JValue.str ['f'])] ['f'] rfl rfl (by decide)).1 rfl rfl

/-! ## Snippet writing and provenance recording (`main`, lines 288-298) -/

/-- One extracted unit as consumed by the snippet writer. -/
structure XUnit where
  sql_text : List Char
  approx_line : Nat
  context : List Char

/-- Decimal digits of `n`, most significant first (`%d`). -/
def decimalRepr (n : Nat) : List Char :=
  if n = 0 then ['0'] else (Nat.digits 10 n).reverse.map Nat.digitChar

/-- `f"{n:05d}"`: the decimal representation zero-padded to width 5. -/
def pad5 (n : Nat) : List Char :=
  List.replicate (5 - (decimalRepr n).length) '0' ++ decimalRepr n

/-- `str(extract_dir / f"extracted_{count:05d}.sql")` (line 290). -/
def snippetPath (dir : List Char) (n : Nat) : List Char :=
  dir ++ '/' :: ("extracted_".toList ++ pad5 n ++ ".sql".toList)

/-- Decode a digit string back to a number (most significant first). -/
def decChars (l : List Char) : Nat :=
  l.foldl (fun acc c => acc * 10 + (c.toNat - 48)) 0

lemma decChars_digitChar_aux :
    ∀ ds : List Nat, (∀ d ∈ ds, d < 10) →
      ((ds.reverse.map Nat.digitChar).foldl (fun acc c => acc * 10 + (c.toNat - 48)) 0) =
        Nat.ofDigits 10 ds := by
  intro ds
  induction ds with
  | nil => intro _; rfl
  | cons d ds' ih =>
    intro hlt
    have hd : d < 10 := hlt d (List.mem_cons_self _ _)
    have hval : (Nat.digitChar d).toNat - 48 = d := by
      interval_cases d <;> rfl
    rw [List.reverse_cons, List.map_append, List.foldl_append]
    rw [ih fun x hx => hlt x (List.mem_cons_of_mem _ hx)]
    simp only [List.map_cons, List.map_nil, List.foldl_cons, List.foldl_nil]
    rw [hval, Nat.ofDigits_cons]
    ring

lemma decChars_decimalRepr (n : Nat) : decChars (decimalRepr n) = n := by
  unfold decimalRepr decChars
  by_cases h : n = 0
  · rw [if_pos h, h]
    rfl
  · rw [if_neg h]
    rw [decChars_digitChar_aux (Nat.digits 10 n)
      (fun d hd => Nat.digits_lt_base (by norm_num) hd)]
    exact Nat.ofDigits_digits 10 n

lemma decChars_replicate_zero_append (k : Nat) (l : List Char) :
    decChars (List.replicate k '0' ++ l) = decChars l := by
  induction k with
  | zero => rfl
  | succ k ih =>
    rw [List.replicate_succ, List.cons_append]
    unfold decChars at ih ⊢
    simpa using ih

lemma decChars_pad5 (n : Nat) : decChars (pad5 n) = n := by
  unfold pad5
  rw [decChars_replicate_zero_append, decChars_decimalRepr]

lemma pad5_injective {m n : Nat} (h : pad5 m = pad5 n) : m = n := by
  rw [← decChars_pad5 m, ← decChars_pad5 n, h]

lemma snippetPath_injective (dir : List Char) {m n : Nat}
    (h : snippetPath dir m = snippetPath dir n) : m = n := by
  unfold snippetPath at h
  have h1 := List.append_cancel_left h
  injection h1 with h2 h3
  rw [List.append_assoc, List.append_assoc] at h3
  have h4 := List.append_cancel_left h3
  exact pad5_injective (List.append_cancel_right h4)

/-- The write-loop body (lines 288-298) over one source file's extracted
units: increment the run counter, name the snippet by the zero-padded
counter, record the provenance entry under the snippet path. -/
def writeUnits (dir src : List Char) :
    List XUnit → Nat → List (List Char × MapEntry) → Nat × List (List Char × MapEntry)
  | [], cnt, mapping => (cnt, mapping)
  | u :: us, cnt, mapping =>
    writeUnits dir src us (cnt + 1)
      (dictSet mapping (snippetPath dir (cnt + 1))
        ⟨src, u.approx_line, u.context, u.sql_text⟩)

/-- The outer extraction loop (lines 275-298) over (source file, units)
pairs; the counter and map persist across files. -/
def writeAll (dir : List Char) :
    List (List Char × List XUnit) → Nat → List (List Char × MapEntry) →
      Nat × List (List Char × MapEntry)
  | [], cnt, mapping => (cnt, mapping)
  | f :: fs, cnt, mapping =>
    let r := writeUnits dir f.1 f.2 cnt mapping
    writeAll dir fs r.1 r.2

/-- A whole run: counter from 0, fresh provenance map (line 260-261). -/
def runWrite (dir : List Char) (files : List (List Char × List XUnit)) :
    Nat × List (List Char × MapEntry) :=
  writeAll dir files 0 []

/-- The provenance entries the writer should produce for a flattened
(source, unit) sequence starting after counter value `cnt`. -/
def expectedEntries (dir : List Char) : Nat → List (List Char × XUnit) →
    List (List Char × MapEntry)
  | _, [] => []
  | cnt, (src, u) :: rest =>
    (snippetPath dir (cnt + 1), ⟨src, u.approx_line, u.context, u.sql_text⟩) ::
      expectedEntries dir (cnt + 1) rest

/-- Keys produced by `expectedEntries` carry ids in `(cnt, cnt + len]`. -/
lemma expectedEntries_keys (dir : List Char) :
    ∀ (l : List (List Char × XUnit)) (cnt : Nat) (p : List Char × MapEntry),
      p ∈ expectedEntries dir cnt l →
      ∃ j, cnt + 1 ≤ j ∧ j ≤ cnt + l.length ∧ p.1 = snippetPath dir j := by
  intro l
  induction l with
  | nil => intro cnt p hp; simp [expectedEntries] at hp
  | cons su rest ih =>
    intro cnt p hp
    match su with
    | (src, u) =>
      rw [expectedEntries] at hp
      rcases List.mem_cons.mp hp with rfl | hp'
      · exact ⟨cnt + 1, le_refl _, by simp, rfl⟩
      · rcases ih (cnt + 1) p hp' with ⟨j, hj1, hj2, hj3⟩
        exact ⟨j, by omega, by simp; omega, hj3⟩

lemma expectedEntries_append (dir : List Char) :
    ∀ (l1 l2 : List (List Char × XUnit)) (cnt : Nat),
      expectedEntries dir cnt (l1 ++ l2) =
        expectedEntries dir cnt l1 ++ expectedEntries dir (cnt + l1.length) l2 := by
  intro l1
  induction l1 with
  | nil => intro l2 cnt; simp [expectedEntries]
  | cons su rest ih =>
    intro l2 cnt
    match su with
    | (src, u) =>
      rw [List.cons_append, expectedEntries, expectedEntries, ih, List.cons_append]
      simp only [List.length_cons]
      rw [show cnt + 1 + rest.length = cnt + (rest.length + 1) from by omega]

/-- The invariant carried through the run: every key already in the map is a
snippet path with id at most the current counter. -/
def KeysBelow (dir : List Char) (mapping : List (List Char × MapEntry)) (cnt : Nat) :
    Prop :=
  ∀ p ∈ mapping, ∃ j, 1 ≤ j ∧ j ≤ cnt ∧ p.1 = snippetPath dir j

lemma writeUnits_spec (dir src : List Char) :
    ∀ (us : List XUnit) (cnt : Nat) (mapping : List (List Char × MapEntry)),
      KeysBelow dir mapping cnt →
      writeUnits dir src us cnt mapping =
        (cnt + us.length,
         mapping ++ expectedEntries dir cnt (us.map (fun u => (src, u)))) := by
  intro us
  induction us with
  | nil => intro cnt mapping _; simp [writeUnits, expectedEntries]
  | cons u us' ih =>
    intro cnt mapping hkb
    rw [writeUnits]
    have hfind : mapping.find?
        (fun p => decide (p.1 = snippetPath dir (cnt + 1))) = none := by
      rw [List.find?_eq_none]
      intro p hp
      rcases hkb p hp with ⟨j, hj1, hj2, hj3⟩
      simp only [decide_eq_true_eq]
      rw [hj3]
      intro heq
      have := snippetPath_injective dir heq
      omega
    have hset : dictSet mapping (snippetPath dir (cnt + 1))
        ⟨src, u.approx_line, u.context, u.sql_text⟩ =
        mapping ++ [(snippetPath dir (cnt + 1),
          ⟨src, u.approx_line, u.context, u.sql_text⟩)] := by
      unfold dictSet
      rw [hfind]
      rfl
    rw [hset]
    have hkb' : KeysBelow dir (mapping ++ [(snippetPath dir (cnt + 1),
        ⟨src, u.approx_line, u.context, u.sql_text⟩)]) (cnt + 1) := by
      intro p hp
      rcases List.mem_append.mp hp with hp' | hp'
      · rcases hkb p hp' with ⟨j, hj1, hj2, hj3⟩
        exact ⟨j, hj1, by omega, hj3⟩
      · simp at hp'
        exact ⟨cnt + 1, by omega, le_refl _, by rw [hp']⟩
    rw [ih (cnt + 1) _ hkb']
    rw [List.map_cons, expectedEntries]
    simp only [Prod.mk.injEq]
    constructor
    · simp only [List.length_cons]
      omega
    · simp

lemma writeAll_spec (dir : List Char) :
    ∀ (files : List (List Char × List XUnit)) (cnt : Nat)
      (mapping : List (List Char × MapEntry)),
      KeysBelow dir mapping cnt →
      writeAll dir files cnt mapping =
        (cnt + (files.flatMap (fun f => f.2.map (fun u => (f.1, u)))).length,
         mapping ++ expectedEntries dir cnt
           (files.flatMap (fun f => f.2.map (fun u => (f.1, u))))) := by
  intro files
  induction files with
  | nil => intro cnt mapping _; simp [writeAll, expectedEntries]
  | cons f fs ih =>
    intro cnt mapping hkb
    rw [writeAll]
    rw [writeUnits_spec dir f.1 f.2 cnt mapping hkb]
    have hkb2 : KeysBelow dir
        (mapping ++ expectedEntries dir cnt (f.2.map (fun u => (f.1, u))))
        (cnt + f.2.length) := by
      intro p hp
      rcases List.mem_append.mp hp with hp' | hp'
      · rcases hkb p hp' with ⟨j, hj1, hj2, hj3⟩
        exact ⟨j, hj1, by omega, hj3⟩
      · rcases expectedEntries_keys dir _ cnt p hp' with ⟨j, hj1, hj2, hj3⟩
        simp at hj2
        exact ⟨j, by omega, by omega, hj3⟩
    rw [ih (cnt + f.2.length) _ hkb2]
    rw [List.flatMap_cons, expectedEntries_append]
    simp only [Prod.mk.injEq]
    constructor
    · simp only [List.length_append, List.length_map]
      omega
    · simp

lemma dictGet_expectedEntries (dir : List Char) :
    ∀ (l : List (List Char × XUnit)) (cnt i : Nat) (h : i < l.length),
      dictGet (expectedEntries dir cnt l) (snippetPath dir (cnt + i + 1)) =
        some ⟨(l.get ⟨i, h⟩).1, (l.get ⟨i, h⟩).2.approx_line,
          (l.get ⟨i, h⟩).2.context, (l.get ⟨i, h⟩).2.sql_text⟩ := by
  intro l
  induction l with
  | nil => intro cnt i h; simp at h
  | cons su rest ih =>
    intro cnt i h
    match su with
    | (src, u) =>
      rw [expectedEntries]
      match i with
      | 0 =>
        unfold dictGet
        rw [List.find?_cons_of_pos _ (by simp)]
        rfl
      | i + 1 =>
        unfold dictGet
        rw [List.find?_cons_of_neg _ ?_]
        · have := ih (cnt + 1) i (by simpa using h)
          unfold dictGet at this
          rw [show cnt + 1 + i + 1 = cnt + (i + 1) + 1 by omega] at this
          exact this
        · simp only [decide_eq_true_eq]
          intro heq
          have := snippetPath_injective dir heq
          omega

lemma countP_expectedEntries (dir : List Char) :
    ∀ (l : List (List Char × XUnit)) (cnt i : Nat), i < l.length →
      (expectedEntries dir cnt l).countP
        (fun p => decide (p.1 = snippetPath dir (cnt + i + 1))) = 1 := by
  intro l
  induction l with
  | nil => intro cnt i h; simp at h
  | cons su rest ih =>
    intro cnt i h
    match su with
    | (src, u) =>
      rw [expectedEntries]
      match i with
      | 0 =>
        rw [List.countP_cons_of_pos _ _ (by simp)]
        have hz : (expectedEntries dir (cnt + 1) rest).countP
            (fun p => decide (p.1 = snippetPath dir (cnt + 0 + 1))) = 0 := by
          rw [List.countP_eq_zero]
          intro p hp
          rcases expectedEntries_keys dir rest (cnt + 1) p hp with ⟨j, hj1, hj2, hj3⟩
          simp only [decide_eq_true_eq]
          rw [hj3]
          intro heq
          have := snippetPath_injective dir heq
          omega
        rw [hz]
      | i + 1 =>
        rw [List.countP_cons_of_neg _ _ ?_]
        · have := ih (cnt + 1) i (by simpa using h)
          rw [show cnt + 1 + i + 1 = cnt + (i + 1) + 1 by omega] at this
          exact this
        · simp only [decide_eq_true_eq]
          intro heq
          have := snippetPath_injective dir heq
          omega

/-- **C9.** For a whole run over any sources and units: the final counter
equals the number of units; the provenance map holds exactly one entry per
unit, keyed by the unit's snippet path with the strictly increasing
zero-padded sequence id; looking up the `i`-th unit's exact snippet path
retrieves its record, whose `normalized_sql` is the unit's `sql_text`
verbatim (write-then-lookup round trip); each such key occurs exactly once;
and snippet paths of distinct ids never collide. -/
theorem snippet_provenance_roundtrip (dir : List Char)
    (files : List (List Char × List XUnit)) :
    (runWrite dir files).1 =
      (files.flatMap (fun f => f.2.map (fun u => (f.1, u)))).length ∧
    (runWrite dir files).2 =
      expectedEntries dir 0 (files.flatMap (fun f => f.2.map (fun u => (f.1, u)))) ∧
    (∀ i, ∀ h : i < (files.flatMap (fun f => f.2.map (fun u => (f.1, u)))).length,
      dictGet (runWrite dir files).2 (snippetPath dir (i + 1)) =
        some ⟨((files.flatMap (fun f => f.2.map (fun u => (f.1, u)))).get ⟨i, h⟩).1,
          ((files.flatMap (fun f => f.2.map (fun u => (f.1, u)))).get ⟨i, h⟩).2.approx_line,
          ((files.flatMap (fun f => f.2.map (fun u => (f.1, u)))).get ⟨i, h⟩).2.context,
          ((files.flatMap (fun f => f.2.map (fun u => (f.1, u)))).get ⟨i, h⟩).2.sql_text⟩ ∧
      (runWrite dir files).2.countP
        (fun p => decide (p.1 = snippetPath dir (i + 1))) = 1) ∧
    (∀ m n : Nat, snippetPath dir m = snippetPath dir n → m = n) := by
  have hrun := writeAll_spec dir files 0 [] (by intro p hp; simp at hp)
  have h1 : (runWrite dir files).1 =
      (files.flatMap (fun f => f.2.map (fun u => (f.1, u)))).length := by
    unfold runWrite
    rw [hrun]
    simp
  have h2 : (runWrite dir files).2 =
      expectedEntries dir 0 (files.flatMap (fun f => f.2.map (fun u => (f.1, u)))) := by
    unfold runWrite
    rw [hrun]
    simp
  refine ⟨h1, h2, ?_, fun m n => snippetPath_injective dir⟩
  intro i h
  rw [h2]
  constructor
  · have := dictGet_expectedEntries dir
      (files.flatMap (fun f => f.2.map (fun u => (f.1, u)))) 0 i h
    simpa using this
  · have := countP_expectedEntries dir
      (files.flatMap (fun f => f.2.map (fun u => (f.1, u)))) 0 i h
    simpa using this

/-- Witness for C9 at a one-file, one-unit run. -/
theorem snippet_provenance_roundtrip_witness :
    dictGet (runWrite ("tmp".toList)
        [("a.java".toList, [⟨"SELECT 1;".toList, 3, "call".toList⟩])]).2
      (snippetPath ("tmp".toList) 1) =
      some ⟨"a.java".toList, 3, "call".toList, "SELECT 1;".toList⟩ :=
  ((snippet_provenance_roundtrip ("tmp".toList)
    [("a.java".toList, [⟨"SELECT 1;".toList, 3, "call".toList⟩])]).2.2.1 0
    (by decide)).1

end ExtractSql
